import Mathlib

/-!
# Verification of the `tokenise` repository against its specification

Shallow embedding of the three source files
(`corpus/faiss_cli.py`, `w2vec/dataset.py`, `w2vec/model.py`) in Lean 4,
together with theorems settling the frozen claims about the spec.

Conventions used throughout:
* Python lists become Lean `List`s; appending at the end (`l.append(x)`)
  becomes `l ++ [x]` so that positions agree with the source.
* Python dicts become association lists in which an assignment
  `m[k] = v` conses `(k, v)` at the front and lookup (`List.lookup`)
  returns the most recent write, matching dict lookup semantics.
* `sys.exit` after `logging.error` (the script's only error policy)
  becomes an `Except`/`Option` error value carrying the relevant datum.
* Floating point scores are modelled as rationals (`ℚ`) where the code only
  compares them, and as reals (`ℝ`) where the claim is about analysis
  (losses); random draws become an explicit stream `Nat → Nat`.
-/

set_option maxHeartbeats 1600000

namespace FaissCli

/-! ## `Infile.__init__` (corpus/faiss_cli.py, lines 27-69)

A vector file is presented as the list of its already-split lines: the
source does `l.rstrip().split(' ')` on each raw line, so one line is a
`List String` of cells.  The numeric content of a cell is irrelevant to the
shape checks, so cells stay strings (the later `astype('float32')` does not
change the count/width of the record). -/

/-- State of the `Infile.__init__` reading loop: `self.vec` (the vectors
read so far, as split lines) and `self.d` (the current dimensionality,
`0` while still unresolved). -/
structure InfileState where
  vec : List (List String)
  d   : Nat
  deriving Repr, DecidableEq

/-- One iteration of the `for l in f` loop of `Infile.__init__`
(lines 38-46): with `self.d > 0` a line whose cell count differs from
`self.d` logs an error naming line `len(self.vec)+1` and exits
(modelled as `Except.error` carrying that line number); with `self.d == 0`
the line's cell count becomes `self.d`.  In both non-fatal cases the line
is appended to `self.vec`. -/
def infileStep (st : InfileState) (l : List String) : Except Nat InfileState :=
  if 0 < st.d then
    if l.length ≠ st.d then Except.error (st.vec.length + 1)
    else Except.ok { vec := st.vec ++ [l], d := st.d }
  else Except.ok { vec := st.vec ++ [l], d := l.length }

/-- The `for l in f` loop of `Infile.__init__`, iterating `infileStep`
with the early exit of `sys.exit`. -/
def infileGo (st : InfileState) : List (List String) → Except Nat InfileState
  | [] => Except.ok st
  | l :: rest =>
    match infileStep st l with
    | Except.error e => Except.error e
    | Except.ok st' => infileGo st' rest

/-- The whole reading loop of `Infile.__init__` on the split `lines` of the
vector file, starting from caller-supplied expected dimensionality `d`
(`0` meaning "take it from the first line"). -/
def infileLoad (lines : List (List String)) (d : Nat) : Except Nat InfileState :=
  infileGo { vec := [], d := d } lines

/-- The resolved dimensionality: the caller-supplied value when positive,
otherwise the first line's cell count. -/
def resolvedD (lines : List (List String)) (d : Nat) : Nat :=
  if 0 < d then d else ((lines.head?.map List.length).getD 0)

/-! ## `IndexFaiss.Query` (corpus/faiss_cli.py, lines 85-129)

The vectors live inside the external faiss index, so a loaded database is
presented as its aligned text lines together with what `index.search`
returns for the query: per query item, the `k` pairs
`(I[i_query, j], D[i_query, j])` of database offset and score.  Scores
are rationals.

Line 106, `results = [defaultdict(float)] * len(query)`, multiplies a
one-element list: all `len(query)` result slots reference the SAME dict,
so every write lands in one shared mapping.  Line 128 then evaluates
`self.curr_db.txt[i_db]`, but no method ever assigns `self.curr_db` (only
the local variable `curr_db` of line 108 exists), so the first hit that
survives both filters raises `AttributeError`, modelled as
`Except.error`. -/

/-- One loaded database as `Query` sees it. -/
structure QueryDB where
  txt : List String
  hits : List (List (Nat × ℚ))
  deriving Repr, DecidableEq

/-- The fatal error of `Query`: `self.curr_db` was never assigned. -/
inductive QueryCrash
  | attr_curr_db
  deriving Repr, DecidableEq

/-- The double loop of lines 120-128 over one database's search results,
threading the single shared mapping: a hit scoring below `min_score` is
skipped (line 124), with `skip_same_id` a hit whose database offset equals
the query offset is skipped (line 126), and every surviving hit reaches
the undefined `self.curr_db` attribute (line 128). -/
def queryHitsDB (min_score : ℚ) (skip_same_id : Bool) (db : QueryDB)
    (shared : List (String × ℚ)) : Except QueryCrash (List (String × ℚ)) :=
  db.hits.enum.foldlM
    (fun sh iq =>
      iq.2.foldlM
        (fun sh hit =>
          if hit.2 < min_score then Except.ok sh
          else if skip_same_id ∧ iq.1 = hit.1 then Except.ok sh
          else Except.error QueryCrash.attr_curr_db)
        sh)
    shared

/-- `IndexFaiss.Query(query, k, min_score, skip_same_id)` (lines 105-129)
with `nq` query items: run the per-database loop over every held database
and return the aliased result list — `nq` references to the one shared
mapping of line 106. -/
def faissQuery (dbs : List QueryDB) (nq : Nat) (min_score : ℚ)
    (skip_same_id : Bool) : Except QueryCrash (List (List (String × ℚ))) :=
  match dbs.foldlM (fun sh db => queryHitsDB min_score skip_same_id db sh) [] with
  | Except.error e => Except.error e
  | Except.ok shared => Except.ok (List.replicate nq shared)

/-! ## Search CLI driver (corpus/faiss_cli.py, lines 180-280) -/

/-- `s.split(',')` on the character list (structural recursion so that
concrete invocations evaluate): a comma ends the current segment, and the
empty string yields `['']` exactly as in Python — a parsed file list is
therefore never empty. -/
def splitCommaAux : List Char → List (List Char)
  | [] => [[]]
  | c :: cs =>
    if c = ',' then [] :: splitCommaAux cs
    else match splitCommaAux cs with
      | [] => [[c]]
      | w :: ws => (c :: w) :: ws

/-- Python's `tok.split(',')` (lines 219-225). -/
def splitComma (s : String) : List String :=
  (splitCommaAux s.data).map List.asString

/-- The flag state of `__main__` (lines 182-193).  `-k` and `-min_score`
keep their raw argument strings: the `int()`/`float()` conversions are
delegated to Python and play no part in the validation logic modelled
here. -/
structure CliArgs where
  fdb : List String
  fquery : List String
  fdb_str : List String
  fquery_str : List String
  k : String
  min_score : String
  skip_same_id : Bool
  skip_query : Bool
  do_eval : Bool
  verbose : Bool
  log_file : Option String
  log_level : String
  deriving Repr, DecidableEq

/-- The initial flag state (lines 182-193). -/
def initArgs : CliArgs :=
  ⟨[], [], [], [], "1", "0.5", false, false, false, false, none, "debug"⟩

/-- The ways the process exits before reaching the query loop. -/
inductive CliExit
  | help_shown
  | unparsed (tok : String)
  | bad_log_level
  | missing_db
  | missing_query
  | db_str_mismatch
  | query_str_mismatch
  deriving Repr, DecidableEq

/-- Whether the exit path writes the usage banner: only `-h` (line 214)
and an unparsed option (line 242) print `usage`; the validation errors of
lines 247-267 only log an error message. -/
def usageShown : CliExit → Bool
  | CliExit.help_shown => true
  | CliExit.unparsed _ => true
  | _ => false

/-- The `while len(sys.argv)` flag loop (lines 211-243).  A value flag
consumes its argument only when one remains (`and len(sys.argv)`);
otherwise, like any unknown token, it falls through to the
unparsed-option exit, which prints the usage text.  (`''.split(',')` is
`['']` in Python, so a parsed file list is never empty.) -/
def parseArgs : List String → CliArgs → Except CliExit CliArgs
  | [], a => Except.ok a
  | tok :: rest, a =>
    if tok = "-h" then Except.error CliExit.help_shown
    else if tok = "-v" then parseArgs rest { a with verbose := true }
    else if tok = "-skip_same_id" then parseArgs rest { a with skip_same_id := true }
    else if tok = "-do_eval" then parseArgs rest { a with do_eval := true }
    else if tok = "-skip_query" then parseArgs rest { a with skip_query := true }
    else
      match rest with
      | v :: rest' =>
        if tok = "-db" then parseArgs rest' { a with fdb := splitComma v }
        else if tok = "-db_str" then parseArgs rest' { a with fdb_str := splitComma v }
        else if tok = "-query" then parseArgs rest' { a with fquery := splitComma v }
        else if tok = "-query_str" then
          parseArgs rest' { a with fquery_str := splitComma v }
        else if tok = "-k" then parseArgs rest' { a with k := v }
        else if tok = "-min_score" then parseArgs rest' { a with min_score := v }
        else if tok = "-log_file" then parseArgs rest' { a with log_file := some v }
        else if tok = "-log_level" then parseArgs rest' { a with log_level := v }
        else Except.error (CliExit.unparsed tok)
      | [] => Except.error (CliExit.unparsed tok)

/-- `create_logger` (lines 11-21): `getattr(logging, loglevel.upper())`
is an integer exactly for the standard level names; any other name logs
an error and exits (no usage text). -/
def validLogLevel (s : String) : Bool :=
  (s.data.map Char.toUpper).asString ∈ ["CRITICAL", "FATAL", "ERROR", "WARN",
    "WARNING", "INFO", "DEBUG", "NOTSET"]

/-- The configuration with which the driver would enter the reading/query
loops (lines 270-280): the file lists with their (defaulted) sidecars. -/
structure ValidatedCli where
  fdb : List String
  fdb_str : List (Option String)
  fquery : List String
  fquery_str : List (Option String)
  args : CliArgs
  deriving Repr, DecidableEq

/-- `__main__` up to the start of the reading loop (lines 211-267): parse
the flags, configure the logger, then validate the file lists — empty
`-db` or `-query` is fatal; an empty `_str` list is defaulted to `None`
per file; a length mismatch with its file list is fatal.  The query loop
(lines 270-280), the only place query output is printed, runs only on an
`Except.ok` result. -/
def cliValidate (argv : List String) : Except CliExit ValidatedCli :=
  match parseArgs argv initArgs with
  | Except.error e => Except.error e
  | Except.ok a =>
    if ¬ validLogLevel a.log_level then Except.error CliExit.bad_log_level
    else if a.fdb.length = 0 then Except.error CliExit.missing_db
    else if a.fquery.length = 0 then Except.error CliExit.missing_query
    else
      let fdb_str := if a.fdb_str.length = 0 then
          List.replicate a.fdb.length (none : Option String)
        else a.fdb_str.map some
      let fquery_str := if a.fquery_str.length = 0 then
          List.replicate a.fquery.length (none : Option String)
        else a.fquery_str.map some
      if fdb_str.length ≠ a.fdb.length then Except.error CliExit.db_str_mismatch
      else if fquery_str.length ≠ a.fquery.length then
        Except.error CliExit.query_str_mismatch
      else Except.ok ⟨a.fdb, fdb_str, a.fquery, fquery_str, a⟩

end FaissCli

namespace W2Vec

/-! ## `Vocab` (w2vec/dataset.py, lines 63-133)

`idx_to_tok` is the Python list, `tok_to_idx` the Python dict.  A dict
assignment `m[k] = v` conses `(k, v)` at the front, so `List.lookup`
(first match) returns the most recent write, exactly dict lookup. -/

/-- `self.idx_unk = 0` (line 66). -/
def idx_unk : Nat := 0

/-- `self.str_unk = '<unk>'` (line 67). -/
def str_unk : String := "<unk>"

structure Vocab where
  idx_to_tok : List String
  tok_to_idx : List (String × Nat)
  deriving Repr, DecidableEq

/-- `__len__` (lines 111-112). -/
def Vocab.size (v : Vocab) : Nat := v.idx_to_tok.length

/-- `__contains__` on an index (lines 119-120): `s>=0 and s<len(self)`;
indices are `Nat` here, so only the upper bound remains. -/
def Vocab.containsIdx (v : Vocab) (s : Nat) : Bool := decide (s < v.size)

/-- `__contains__` on a string (line 122): membership in `tok_to_idx`. -/
def Vocab.containsTok (v : Vocab) (s : String) : Bool :=
  (v.tok_to_idx.lookup s).isSome

/-- `__getitem__` on an index (lines 125-129): fatal `sys.exit` (`none`)
when the index is out of range, else the token at that index. -/
def Vocab.getTok? (v : Vocab) (s : Nat) : Option String :=
  if v.containsIdx s then v.idx_to_tok.get? s else none

/-- `__getitem__` on a string (lines 131-133): the token's index, or
`idx_unk` when absent. -/
def Vocab.getIdx (v : Vocab) (s : String) : Nat :=
  (v.tok_to_idx.lookup s).getD idx_unk

/-- One stripped line of `Vocab.read` (lines 76-79): an unseen token is
appended and gets the next index (`len(self.tok_to_idx)`). -/
def Vocab.readTok (v : Vocab) (tok : String) : Vocab :=
  if (v.tok_to_idx.lookup tok).isSome then v
  else { idx_to_tok := v.idx_to_tok ++ [tok],
         tok_to_idx := (tok, v.tok_to_idx.length) :: v.tok_to_idx }

/-- `Vocab.read` on the stripped lines of a vocabulary file, starting from
a fresh `Vocab()`. -/
def Vocab.read (lines : List String) : Vocab :=
  lines.foldl Vocab.readTok ⟨[], []⟩

/-- `self.tok_to_frq[tok] += 1` on a `defaultdict(int)` (line 98):
increment in place, new keys appended at the end, so the key order of the
result is first-encounter order. -/
def bumpCount : List (String × Nat) → String → List (String × Nat)
  | [], tok => [(tok, 1)]
  | (k, n) :: rest, tok =>
    if k = tok then (k, n + 1) :: rest else (k, n) :: bumpCount rest tok

/-- The frequency dict of `Vocab.build` over the concatenated token stream
of all files (lines 91-99). -/
def countFreqs (toks : List String) : List (String × Nat) :=
  toks.foldl bumpCount []

/-- Stable insertion into a weakly-descending-by-frequency list: the new
element goes after every element of frequency ≥ its own.  Folding this
over a list models Python's stable `sorted(..., key=frq, reverse=True)`
(line 102): ties keep their original relative order. -/
def insertDesc (x : String × Nat) : List (String × Nat) → List (String × Nat)
  | [] => [x]
  | y :: ys => if x.2 ≤ y.2 then y :: insertDesc x ys else x :: y :: ys

/-- Python's `sorted(self.tok_to_frq.items(), key=λ item: item[1],
reverse=True)` (line 102), as a stable sort. -/
def sortFrqDesc (l : List (String × Nat)) : List (String × Nat) :=
  l.foldl (fun acc x => insertDesc x acc) []

/-- The `for wrd, frq in sorted(...)` loop of `Vocab.build`
(lines 102-108), with its two `break`s: stop when the table length hits
`max_size` or the frequency drops below `min_freq`; otherwise assign the
next index (`len(self.idx_to_tok)` before the append, line 107). -/
def buildLoop (max_size min_freq : Nat) : Vocab → List (String × Nat) → Vocab
  | v, [] => v
  | v, (wrd, frq) :: rest =>
    if v.idx_to_tok.length = max_size then v
    else if frq < min_freq then v
    else buildLoop max_size min_freq
      { idx_to_tok := v.idx_to_tok ++ [wrd],
        tok_to_idx := (wrd, v.idx_to_tok.length) :: v.tok_to_idx } rest

/-- `Vocab.build` (lines 90-109) on the concatenated token stream `toks`:
reserve index 0 for `str_unk` (lines 100-101), then run the loop on the
frequency-sorted counts. -/
def Vocab.build (toks : List String) (min_freq max_size : Nat) : Vocab :=
  buildLoop max_size min_freq ⟨[str_unk], [(str_unk, idx_unk)]⟩
    (sortFrqDesc (countFreqs toks))

/-- Entry-consistency of a vocabulary: every `(tok, idx)` write recorded in
`tok_to_idx` points to a position of `idx_to_tok` holding `tok`.  Every
vocabulary the source constructs satisfies this, since `idx_to_tok` only
ever grows by appending after the matching dict write. -/
def Vocab.Consistent (v : Vocab) : Prop :=
  ∀ p ∈ v.tok_to_idx, v.idx_to_tok.get? p.2 = some p.1

instance (v : Vocab) : Decidable v.Consistent := by
  unfold Vocab.Consistent; infer_instance

/-- A small concrete vocabulary (token stream `b a b`, `min_freq = 1`,
no size cap), used to instantiate the vocabulary claims. -/
def exVocab : Vocab := Vocab.build ["b", "a", "b"] 1 0

/-- The corpus-wide frequency of a token, read off the frequency dict of
`Vocab.build` (0 for a token that never occurs). -/
def frqOf (toks : List String) (w : String) : Nat :=
  ((countFreqs toks).lookup w).getD 0

/-- The entries the `Vocab.build` loop consumes from the sorted frequency
list before one of its `break`s fires, starting from table length `len0`
(descriptive companion of `buildLoop`). -/
def buildTake (len0 max_size min_freq : Nat) : List (String × Nat) → List (String × Nat)
  | [] => []
  | (w, f) :: rest =>
    if len0 = max_size then []
    else if f < min_freq then []
    else (w, f) :: buildTake (len0 + 1) max_size min_freq rest

/-- The strict order realised by Python's stable
`sorted(..., key=frq, reverse=True)` on the frequency dict's entries:
strictly larger frequency, or equal frequency and strictly earlier first
encounter in the token stream `toks`. -/
def EntryBefore (toks : List String) (p q : String × Nat) : Prop :=
  q.2 < p.2 ∨ (p.2 = q.2 ∧ toks.indexOf p.1 < toks.indexOf q.1)

/-! ## `Dataset` batch construction (w2vec/dataset.py, lines 138-273)

The corpus is the list of already-indexed sentences (`self.corpus`, each a
list of vocabulary indices).  Randomness (`random.randint`) is an explicit
stream `draws : Nat → Nat` consumed one value per call, and the unbounded
`while` resampling loop carries explicit fuel: `none` models the Python
loop spinning without this bound. -/

/-- The per-`Dataset` parameters (`__init__`, lines 141-145). -/
structure DsParams where
  batch_size : Nat
  window : Nat
  n_negs : Nat
  vocab_size : Nat
  idx_pad : Nat
  deriving Repr, DecidableEq

/-- The context window of position `i` (lines 208-216): positions
`i-window .. i+window`, the pad index outside the sentence bounds, and
position `i` itself skipped. -/
def mkCtx (window pad : Nat) (toks : List Nat) (i : Nat) : List Nat :=
  (List.range (2 * window + 1)).foldl
    (fun ctx o =>
      let j : Int := (i : Int) - (window : Int) + (o : Int)
      if j < 0 then ctx ++ [pad]
      else if (toks.length : Int) ≤ j then ctx ++ [pad]
      else if j ≠ (i : Int) then ctx ++ [toks.getD j.toNat pad]
      else ctx)
    []

/-- One negative draw with its `while` retry loop (lines 221-223):
`random.randint(1, vocab_size-1)` is `draws pos`, redrawn while the value
lies in the context window or equals the centre word.  `fuel` bounds the
retries; the Python loop is unbounded. -/
def pickNeg (wrd : Nat) (ctx : List Nat) (draws : Nat → Nat) :
    Nat → Nat → Option (Nat × Nat)
  | 0, _ => none
  | fuel + 1, pos =>
    if draws pos ∈ ctx ∨ draws pos = wrd then pickNeg wrd ctx draws fuel (pos + 1)
    else some (draws pos, pos + 1)

/-- The `for _ in range(self.n_negs)` loop (lines 219-225), threading the
draw position. -/
def pickNegs (wrd : Nat) (ctx : List Nat) (draws : Nat → Nat) (fuel : Nat) :
    Nat → Nat → Option (List Nat × Nat)
  | 0, pos => some ([], pos)
  | n + 1, pos =>
    match pickNeg wrd ctx draws fuel pos with
    | none => none
    | some (idx, pos') =>
      match pickNegs wrd ctx draws fuel n pos' with
      | none => none
      | some (negs, pos'') => some (idx :: negs, pos'')

/-- One training batch: the five parallel lists of
`[batch_wrd, batch_ctx, batch_neg, batch_snt, batch_len]` (line 228). -/
structure Batch where
  wrd : List Nat
  ctx : List (List Nat)
  neg : List (List Nat)
  snt : List (List Nat)
  len : List Nat
  deriving Repr, DecidableEq

/-- The empty partial batch (lines 181-185 / 229-233). -/
def emptyBatch : Batch := ⟨[], [], [], [], []⟩

/-- Accumulator of `build_batchs`: completed batches, the current partial
batch, and the next random-draw position. -/
structure BState where
  batchs : List Batch
  cur : Batch
  pos : Nat
  deriving Repr, DecidableEq

/-- The retroactive padding of lines 203-205: every entry but the last is
right-padded with `idx_pad` up to the last entry's length (`addn` is
never negative here because Python's `[pad]*addn` is empty for negative
`addn`, exactly like truncated subtraction). -/
def padSnts (pad : Nat) (snts : List (List Nat)) : List (List Nat) :=
  match snts.getLast? with
  | none => snts
  | some lastSnt =>
    (snts.dropLast.map
      (fun s => s ++ List.replicate (lastSnt.length - s.length) pad)) ++ [lastSnt]

/-- The body of `for i in range(len(toks))` (lines 192-233): emit the
example for centre position `i` (centre word, sentence-minus-centre with
retro padding, context window, `n_negs` negatives) and flush the partial
batch when it reaches `batch_size`. -/
def stepPos (p : DsParams) (draws : Nat → Nat) (fuel : Nat)
    (toks : List Nat) (st : BState) (i : Nat) : Option BState :=
  let wrd := toks.getD i 0
  let snt := toks.eraseIdx i
  let snts0 := st.cur.snt ++ [snt]
  let snts :=
    if 1 < snts0.length ∧ (snts0.headD []).length < snt.length then
      padSnts p.idx_pad snts0
    else snts0
  let ctx := mkCtx p.window p.idx_pad toks i
  match pickNegs wrd ctx draws fuel p.n_negs st.pos with
  | none => none
  | some (neg, pos') =>
    let cur' : Batch :=
      { wrd := st.cur.wrd ++ [wrd]
        ctx := st.cur.ctx ++ [ctx]
        neg := st.cur.neg ++ [neg]
        snt := snts
        len := st.cur.len ++ [snt.length] }
    if cur'.wrd.length = p.batch_size then
      some { batchs := st.batchs ++ [cur'], cur := emptyBatch, pos := pos' }
    else
      some { batchs := st.batchs, cur := cur', pos := pos' }

/-- One sentence of `build_batchs` (lines 186-233): sentences shorter than
2 tokens are skipped (line 188), otherwise every position is a centre. -/
def stepSent (p : DsParams) (draws : Nat → Nat) (fuel : Nat)
    (st : BState) (toks : List Nat) : Option BState :=
  if toks.length < 2 then some st
  else (List.range toks.length).foldlM (stepPos p draws fuel toks) st

/-- Stable insertion, ascending by sentence length, used to model
`np.argsort` over the length array (lines 178-179 / 244-245): entries of
equal length keep their corpus order. -/
def insertAscPair (x : Nat × List Nat) : List (Nat × List Nat) → List (Nat × List Nat)
  | [] => [x]
  | y :: ys => if y.2.length ≤ x.2.length then y :: insertAscPair x ys else x :: y :: ys

/-- `np.argsort(np.array(length))` (lines 178-179): the corpus with its
original positions, sorted ascending by sentence length. -/
def argsortByLen (corpus : List (List Nat)) : List (Nat × List Nat) :=
  corpus.enum.foldl (fun acc x => insertAscPair x acc) []

/-- `Dataset.build_batchs` (lines 177-241): iterate the sorted sentences,
then keep the final partial batch if non-empty (lines 235-236). -/
def build_batchs (p : DsParams) (draws : Nat → Nat) (fuel : Nat)
    (corpus : List (List Nat)) : Option (List Batch) :=
  match ((argsortByLen corpus).map Prod.snd).foldlM
      (stepSent p draws fuel) ⟨[], emptyBatch, 0⟩ with
  | none => none
  | some st =>
    if st.cur.wrd.length ≠ 0 then some (st.batchs ++ [st.cur])
    else some st.batchs

/-- One inference batch `[batch_snt, batch_len, batch_ind]` (line 256).
Line 252 appends `batch_snt[-1]` — the sentence itself, not its length —
into `batch_len`, so the second component has type `List (List Nat)`. -/
structure InferBatch where
  snt : List (List Nat)
  len : List (List Nat)
  ind : List Nat
  deriving Repr, DecidableEq

/-- Accumulator of `build_batchs_infer_sent`. -/
structure InferState where
  batchs : List InferBatch
  cur : InferBatch
  deriving Repr, DecidableEq

/-- One sorted sentence of `build_batchs_infer_sent` (lines 250-259):
append the sentence, append `batch_snt[-1]` (the sentence again, line 252)
to `batch_len`, append the original corpus position, flush at
`batch_size`. -/
def inferStep (batch_size : Nat) (st : InferState) (x : Nat × List Nat) :
    InferState :=
  let cur' : InferBatch :=
    { snt := st.cur.snt ++ [x.2]
      len := st.cur.len ++ [x.2]
      ind := st.cur.ind ++ [x.1] }
  if cur'.snt.length = batch_size then
    { batchs := st.batchs ++ [cur'], cur := ⟨[], [], []⟩ }
  else
    { batchs := st.batchs, cur := cur' }

/-- `Dataset.build_batchs_infer_sent` (lines 243-266). -/
def build_batchs_infer_sent (batch_size : Nat) (corpus : List (List Nat)) :
    List InferBatch :=
  let st := (argsortByLen corpus).foldl (inferStep batch_size) ⟨[], ⟨[], [], []⟩⟩
  if st.cur.snt.length ≠ 0 then st.batchs ++ [st.cur] else st.batchs

/-- The property claimed of every emitted training example: exactly
`n_negs` negatives, each in `1 .. vocab_size-1`, different from the
centre word and absent from the context window (stated positionally over
the parallel lists of a batch). -/
def GoodBatch (p : DsParams) (b : Batch) : Prop :=
  b.neg.length = b.wrd.length ∧ b.ctx.length = b.wrd.length ∧
  ∀ k, k < b.wrd.length →
    (b.neg.getD k []).length = p.n_negs ∧
    ∀ x ∈ b.neg.getD k [],
      1 ≤ x ∧ x ≤ p.vocab_size - 1 ∧ x ≠ b.wrd.getD k 0 ∧ x ∉ b.ctx.getD k []

/-- `GoodBatch` for every completed batch and for the current partial
batch of a `build_batchs` accumulator. -/
def StInv (p : DsParams) (st : BState) : Prop :=
  (∀ b ∈ st.batchs, GoodBatch p b) ∧ GoodBatch p st.cur

/-! ## Checkpoint manager (w2vec/model.py, lines 18-45)

A checkpoint file name is `pattern + '.model.{:09d}.pth'.format(n_steps)`,
so for a fixed pattern a file is identified by its step number.  The glob
`pattern + '.model.?????????.pth'` matches exactly nine characters, hence
only steps below `10^9`, and on those the zero-padding makes lexicographic
file-name order coincide with numeric step order.  The directory is
modelled as the association of step numbers to written payloads; model and
optimizer state dicts are abstract types `M` and `O`. -/

/-- The payload `state` written by `save_model_optim` (lines 34-38). -/
structure Ckpt (M O : Type) where
  n_steps : Nat
  optim : O
  model : M
  deriving DecidableEq

/-- The checkpoint directory restricted to one file-name pattern. -/
structure CkptFS (M O : Type) where
  files : List (Nat × Ckpt M O)
  deriving DecidableEq

/-- Ascending insertion for sorting step numbers. -/
def insAsc (x : Nat) : List Nat → List Nat
  | [] => [x]
  | y :: ys => if y ≤ x then y :: insAsc x ys else x :: y :: ys

/-- Numeric sort of step numbers (= lexicographic sort of the padded
file names). -/
def sortNat (l : List Nat) : List Nat :=
  l.foldl (fun acc x => insAsc x acc) []

/-- `sorted(glob.glob(pattern + '.model.?????????.pth'))`
(lines 19 and 41): the steps with a file, below `10^9`, ascending. -/
def listCkpts {M O : Type} (fs : CkptFS M O) : List Nat :=
  sortNat ((fs.files.map Prod.fst).filter (fun n => n < 1000000000))

/-- `torch.save(state, file)` (line 39): writing a file replaces any
previous file of the same name (same step). -/
def fsWrite {M O : Type} (fs : CkptFS M O) (c : Ckpt M O) : CkptFS M O :=
  ⟨(c.n_steps, c) :: fs.files.filter (fun p => p.1 ≠ c.n_steps)⟩

/-- `os.remove(f)` (line 44). -/
def fsRemove {M O : Type} (fs : CkptFS M O) (n : Nat) : CkptFS M O :=
  ⟨fs.files.filter (fun p => p.1 ≠ n)⟩

/-- `save_model_optim` (lines 32-45): write the checkpoint for `n_steps`,
then list the matching files sorted ascending and delete the oldest ones
while more than `keep_last_n` remain — i.e. the first
`len - keep_last_n` entries of the sorted listing. -/
def save_model_optim {M O : Type} (fs : CkptFS M O) (model : M) (optim : O)
    (n_steps keep_last_n : Nat) : CkptFS M O :=
  let fs1 := fsWrite fs ⟨n_steps, optim, model⟩
  let listed := listCkpts fs1
  (listed.take (listed.length - keep_last_n)).foldl fsRemove fs1

/-- `load_model_optim` (lines 18-30): if any file matches the pattern,
load the last (highest-step) one and return its recorded step count with
the restored model/optimizer state; otherwise return step 0 and the
freshly constructed `model`/`optimizer` unchanged.  (The inner `none`
branch is unreachable: every listed step has a file.) -/
def load_model_optim {M O : Type} (fs : CkptFS M O) (model : M) (optim : O) :
    Nat × M × O :=
  match (listCkpts fs).getLast? with
  | some n =>
    match fs.files.lookup n with
    | some c => (c.n_steps, c.model, c.optim)
    | none => (0, model, optim)
  | none => (0, model, optim)

/-! ## `Word2Vec` losses (w2vec/model.py, lines 56-244)

Float32 tensors are modelled over the reals.  An embedding table maps a
vocabulary index to its row vector; the three forward losses combine
per-example dot products (`torch.bmm` restricted to the matching rows)
through sigmoid, clamp, log, negation and means, over the parallel index
lists of a `Batch` exactly as produced by `Dataset.build_batchs`. -/

/-- The embedding model: dimension `ds` and the two tables `iEmb`/`oEmb`
(lines 57-67); their (random) contents stay abstract. -/
structure Word2Vec where
  ds : Nat
  iEmb : Nat → List ℝ
  oEmb : Nat → List ℝ

/-- `torch.sigmoid`. -/
noncomputable def sigmoidR (x : ℝ) : ℝ := 1 / (1 + Real.exp (-x))

/-- `min_ = 1e-06` (lines 146, 182, 214). -/
noncomputable def minClamp : ℝ := 1 / 1000000

/-- `.clamp(min_, max_)` with `max_ = 1.0 - 1e-06` (line 147). -/
noncomputable def clampR (x : ℝ) : ℝ := max minClamp (min (1 - minClamp) x)

/-- The dot product of two rows. -/
def dotR (u v : List ℝ) : ℝ := (List.zipWith (fun a b => a * b) u v).sum

/-- `.mean()` over a vector of values. -/
noncomputable def meanR (l : List ℝ) : ℝ := l.sum / l.length

/-- Pointwise sum of vectors of width `ds` (`torch.sum(..., dim=1)`). -/
def sumVecs (ds : Nat) (vs : List (List ℝ)) : List ℝ :=
  vs.foldl (fun acc v => List.zipWith (fun a b => a + b) acc v)
    (List.replicate ds 0)

/-- `torch.mean(cemb, dim=1)` (line 190): the pointwise mean of rows. -/
noncomputable def meanVecs (ds : Nat) (vs : List (List ℝ)) : List ℝ :=
  (sumVecs ds vs).map (fun x => x / (vs.length : ℝ))

/-- `SentEmbed(snt, lens, 'iEmb', 'avg')` for one row (lines 99-104): the
mask keeps positions strictly before the row's length, the masked
embeddings are summed and divided by the mask count (= the length, since
every length is at most the padded width). -/
noncomputable def sentEmbAvg (w : Word2Vec) (snt : List Nat) (len : Nat) :
    List ℝ :=
  (sumVecs w.ds ((snt.take len).map w.iEmb)).map (fun x => x / (len : ℝ))

/-- Whether a list of rows is rectangular: `torch.as_tensor` inside
`Embed`/`SentEmbed` raises `ValueError` on ragged input, so a loss exists
only for rectangular `batch[1]`/`batch[2]`/`batch[3]`. -/
def rectRows (rows : List (List Nat)) : Bool :=
  rows.all (fun r => r.length == (rows.headD []).length)

/-- The width of the `batch[1]` context tensor (`2*window`). -/
def ctxW (b : Batch) : Nat := (b.ctx.headD []).length

/-- The width of the `batch[2]` negatives tensor (`n_negs`). -/
def negW (b : Batch) : Nat := (b.neg.headD []).length

/-- The width of the padded `batch[3]` sentence tensor. -/
def sntW (b : Batch) : Nat := (b.snt.headD []).length

/-- `np.array(lengths).max()` (line 50), the mask width. -/
def maxLen (l : List Nat) : Nat := l.foldr max 0

/-- `forward_sgram` (lines 145-179).  Both score tensors go through the
no-argument `.squeeze()` (lines 162 and 169), which removes EVERY size-1
dimension, followed by `.mean(1)`: with exactly one example
(`[1,C,1] → [C]`), a width-one context (`[bs,1,1] → [bs]`) or exactly one
negative, the squeezed tensor is one-dimensional and `.mean(1)` raises
`IndexError` — the program produces no loss.  A width-0 dimension instead
makes the mean `NaN`, which the fatal check of lines 175-177 turns into
`sys.exit`.  All these no-loss paths are `none`; otherwise the loss is
the sum of the two batch means of `-log(clamp(sigmoid(score)))` /
`-log(clamp(1 - sigmoid(score)))` terms. -/
noncomputable def forward_sgram (w : Word2Vec) (b : Batch) : Option ℝ :=
  if rectRows b.ctx ∧ rectRows b.neg then
    if b.wrd.length ≤ 1 ∨ ctxW b ≤ 1 ∨ negW b ≤ 1 then none
    else some (
      meanR ((b.wrd.zip b.ctx).map (fun pc =>
        meanR (pc.2.map (fun c =>
          - Real.log (clampR (sigmoidR (dotR (w.oEmb c) (w.iEmb pc.1)))))))) +
      meanR ((b.wrd.zip b.neg).map (fun pn =>
        meanR (pn.2.map (fun c =>
          - Real.log (clampR (1 - sigmoidR (dotR (w.oEmb c) (w.iEmb pn.1)))))))))
  else none

/-- `forward_cbow` (lines 181-211): the context embeddings are averaged
first (line 190) and scored against the centre word's output embedding;
negatives are scored against the same context mean.  Unlike
`forward_sgram`, the positive mean takes no dimension argument (line 197)
and the negative side uses the dimension-specific `.squeeze(1)`
(line 201), so one-example and one-negative batches are fine; only an
empty batch or an empty context/negative dimension yields `NaN` means
that the fatal check of lines 207-209 turns into `sys.exit` (`none`). -/
noncomputable def forward_cbow (w : Word2Vec) (b : Batch) : Option ℝ :=
  if rectRows b.ctx ∧ rectRows b.neg then
    if b.wrd.length = 0 ∨ ctxW b = 0 ∨ negW b = 0 then none
    else some (
      meanR ((b.wrd.zip b.ctx).map (fun pc =>
        - Real.log (clampR (sigmoidR
            (dotR (meanVecs w.ds (pc.2.map w.iEmb)) (w.oEmb pc.1)))))) +
      meanR ((b.ctx.zip b.neg).map (fun cn =>
        meanR (cn.2.map (fun c =>
          - Real.log (clampR (1 - sigmoidR
              (dotR (meanVecs w.ds (cn.1.map w.iEmb)) (w.oEmb c)))))))))
  else none

/-- `forward_s2vec` (lines 213-244): the pooled sentence embedding (avg
over `iEmb`) is scored against the centre word's output embedding; the
negatives are scored against the centre word's output embedding itself
(line 234 uses `emb`, not `semb`).  An empty batch makes
`np.array(lengths).max()` (line 50) raise `ValueError`; a zero length
makes that row of the avg pool `0/0 = NaN`, which `SentEmbed`'s fatal
check (lines 110-112) turns into `sys.exit`; the negative side mirrors
`forward_cbow`.  All these no-loss paths are `none`.  The mask width
`max(lens)` must equal the padded sentence width for the element-wise
multiply of lines 98-104 (as `build_batchs` guarantees); the theorem
about this definition assumes exactly that. -/
noncomputable def forward_s2vec (w : Word2Vec) (b : Batch) : Option ℝ :=
  if rectRows b.snt ∧ rectRows b.neg then
    if b.wrd.length = 0 ∨ negW b = 0 ∨ b.len.any (fun n => n == 0) then none
    else some (
      meanR ((b.wrd.zip (b.snt.zip b.len)).map (fun x =>
        - Real.log (clampR (sigmoidR
            (dotR (sentEmbAvg w x.2.1 x.2.2) (w.oEmb x.1)))))) +
      meanR ((b.wrd.zip b.neg).map (fun pn =>
        meanR (pn.2.map (fun c =>
          - Real.log (clampR (1 - sigmoidR (dotR (w.oEmb pn.1) (w.oEmb c)))))))))
  else none

end W2Vec

/-! # Theorems -/

namespace FaissCli

lemma infileGo_all_ok (lines : List (List String)) : ∀ (acc : List (List String)) (rd : Nat),
    0 < rd → (∀ l ∈ lines, l.length = rd) →
    infileGo ⟨acc, rd⟩ lines = Except.ok ⟨acc ++ lines, rd⟩ := by
  induction lines with
  | nil => intro acc rd _ _; simp [infileGo]
  | cons l rest ih =>
    intro acc rd hrd hall
    have hl : l.length = rd := hall l (by simp)
    simp only [infileGo, infileStep, if_pos hrd, hl, if_neg (by omega : ¬ rd ≠ rd)]
    rw [ih (acc ++ [l]) rd hrd (fun x hx => hall x (by simp [hx]))]
    simp

lemma infileGo_first_bad (lines : List (List String)) : ∀ (acc : List (List String)) (rd : Nat)
    (i : Nat), 0 < rd → i < lines.length → (lines.getD i []).length ≠ rd →
    (∀ j, j < i → (lines.getD j []).length = rd) →
    infileGo ⟨acc, rd⟩ lines = Except.error (acc.length + i + 1) := by
  induction lines with
  | nil => intro acc rd i _ hi; simp at hi
  | cons l rest ih =>
    intro acc rd i hrd hi hbad hgood
    cases i with
    | zero =>
      simp only [List.getD, List.get?_cons_zero] at hbad
      simp only [Option.getD_some] at hbad
      simp [infileGo, infileStep, if_pos hrd, hbad]
    | succ i' =>
      have hl : l.length = rd := by
        have := hgood 0 (Nat.succ_pos i')
        simpa [List.getD] using this
      simp only [infileGo, infileStep, if_pos hrd, hl, if_neg (by omega : ¬ rd ≠ rd)]
      have := ih (acc ++ [l]) rd i' hrd (by simpa using hi)
        (by simpa [List.getD] using hbad)
        (fun j hj => by simpa [List.getD] using hgood (j+1) (by omega))
      rw [this]
      simp only [List.length_append, List.length_cons, List.length_nil]
      congr 1
      omega

/-- Claim C2: loading a vector file aborts with the (1-based) number of the
first line whose cell count differs from the resolved dimensionality
(caller-supplied when positive, otherwise the first line's cell count), and
yields the full record of `N` vectors of width `resolvedD` when all lines
are uniform. -/
theorem claim_C2_infile_dimension_check (lines : List (List String)) (d : Nat)
    (hpos : 0 < resolvedD lines d) :
    ((∀ l ∈ lines, l.length = resolvedD lines d) →
      infileLoad lines d = Except.ok ⟨lines, resolvedD lines d⟩) ∧
    (∀ i, i < lines.length → (lines.getD i []).length ≠ resolvedD lines d →
      (∀ j, j < i → (lines.getD j []).length = resolvedD lines d) →
      infileLoad lines d = Except.error (i + 1)) := by
  constructor
  · intro hall
    unfold infileLoad
    by_cases hd : 0 < d
    · have hrd : resolvedD lines d = d := by simp [resolvedD, hd]
      rw [hrd] at hall ⊢
      simpa using infileGo_all_ok lines [] d hd hall
    · cases lines with
      | nil => simp [resolvedD, hd] at hpos
      | cons l0 rest =>
        have hrd : resolvedD (l0 :: rest) d = l0.length := by
          simp [resolvedD, hd]
        rw [hrd] at hall hpos
        have hl0 : l0.length = l0.length := rfl
        simp only [infileGo, infileStep, if_neg (by omega : ¬ 0 < d)]
        have := infileGo_all_ok rest [l0] l0.length hpos
          (fun x hx => hall x (by simp [hx]))
        simp only [List.nil_append]
        rw [this, hrd]
        simp
  · intro i hi hbad hgood
    unfold infileLoad
    by_cases hd : 0 < d
    · have hrd : resolvedD lines d = d := by simp [resolvedD, hd]
      rw [hrd] at hbad hgood
      simpa using infileGo_first_bad lines [] d i hd hi hbad hgood
    · cases lines with
      | nil => simp [resolvedD, hd] at hpos
      | cons l0 rest =>
        have hrd : resolvedD (l0 :: rest) d = l0.length := by
          simp [resolvedD, hd]
        rw [hrd] at hbad hgood hpos
        cases i with
        | zero => simp [List.getD] at hbad
        | succ i' =>
          simp only [infileGo, infileStep, if_neg (by omega : ¬ 0 < d)]
          have := infileGo_first_bad rest [l0] l0.length i' hpos
            (by simpa using hi)
            (by simpa [List.getD] using hbad)
            (fun j hj => by simpa [List.getD] using hgood (j+1) (by omega))
          simp only [List.nil_append]
          have h2 : [l0].length + i' + 1 = i' + 1 + 1 := by
            simp only [List.length_cons, List.length_nil]; omega
          rw [this, h2]

/-- Witness for claim C2: a concrete uniform two-line file of width 2 loads
to a record of 2 vectors of width 2, and a concrete file whose second line
has 3 cells instead of 2 aborts naming line 2. -/
theorem claim_C2_witness :
    0 < resolvedD [["1", "2"], ["3", "4"]] 0 ∧
    infileLoad [["1", "2"], ["3", "4"]] 0 = Except.ok ⟨[["1", "2"], ["3", "4"]], 2⟩ ∧
    infileLoad [["1", "2"], ["3", "4", "5"]] 0 = Except.error 2 :=
  ⟨by decide,
   (claim_C2_infile_dimension_check [["1", "2"], ["3", "4"]] 0 (by decide)).1 (by decide),
   (claim_C2_infile_dimension_check [["1", "2"], ["3", "4", "5"]] 0 (by decide)).2
     1 (by decide) (by decide) (by decide)⟩

end FaissCli

namespace W2Vec

lemma lookup_mem {l : List (String × Nat)} {k : String} {b : Nat}
    (h : l.lookup k = some b) : (k, b) ∈ l := by
  rcases List.lookup_eq_some_iff.mp h with ⟨l₁, l₂, rfl, -⟩
  simp

lemma getTok?_of_get? {v : Vocab} {i : Nat} {t : String}
    (hti : v.idx_to_tok.get? i = some t) : v.getTok? i = some t := by
  have hlt : i < v.idx_to_tok.length := (List.get?_eq_some.mp hti).choose
  simp only [Vocab.getTok?, Vocab.containsIdx, Vocab.size]
  rw [if_pos (by simpa using hlt)]
  exact hti

/-- Claim C3: in a consistent vocabulary whose index 0 holds the unknown
sentinel, string lookup followed by index lookup returns the original
in-vocabulary token; an out-of-vocabulary token maps to the unknown index;
and the unknown index maps back to the unknown string. -/
theorem claim_C3_vocab_roundtrip (v : Vocab)
    (hcons : v.Consistent) (h0 : v.idx_to_tok.get? 0 = some str_unk) :
    (∀ t : String, v.containsTok t = true → v.getTok? (v.getIdx t) = some t) ∧
    (∀ s : String, v.containsTok s = false → v.getIdx s = idx_unk) ∧
    v.getTok? idx_unk = some str_unk := by
  refine ⟨?_, ?_, ?_⟩
  · intro t ht
    have hsome : (v.tok_to_idx.lookup t).isSome = true := by
      simpa only [Vocab.containsTok] using ht
    rcases Option.isSome_iff_exists.mp hsome with ⟨i, hi⟩
    have hmem : (t, i) ∈ v.tok_to_idx := lookup_mem hi
    have hti : v.idx_to_tok.get? i = some t := hcons _ hmem
    have hgi : v.getIdx t = i := by simp [Vocab.getIdx, hi]
    rw [hgi]
    exact getTok?_of_get? hti
  · intro s hs
    have : v.tok_to_idx.lookup s = none := by
      cases h : v.tok_to_idx.lookup s with
      | none => rfl
      | some i => simp [Vocab.containsTok, h] at hs
    simp [Vocab.getIdx, this]
  · exact getTok?_of_get? h0

/-- Witness for claim C3: the concrete vocabulary built from the stream
`b a b` is consistent with the sentinel at index 0, round-trips the
in-vocabulary token `a`, sends the out-of-vocabulary token `zz` to the
unknown index, and sends index 0 to `<unk>`. -/
theorem claim_C3_witness :
    exVocab.Consistent ∧ exVocab.idx_to_tok.get? 0 = some str_unk ∧
    exVocab.containsTok "a" = true ∧ exVocab.containsTok "zz" = false ∧
    exVocab.getTok? (exVocab.getIdx "a") = some "a" ∧
    exVocab.getIdx "zz" = idx_unk ∧
    exVocab.getTok? idx_unk = some str_unk :=
  ⟨by decide, by decide, by decide, by decide,
   (claim_C3_vocab_roundtrip exVocab (by decide) (by decide)).1 "a" (by decide),
   (claim_C3_vocab_roundtrip exVocab (by decide) (by decide)).2.1 "zz" (by decide),
   (claim_C3_vocab_roundtrip exVocab (by decide) (by decide)).2.2⟩

end W2Vec

namespace W2Vec

lemma bumpCount_keys_of_mem (m : List (String × Nat)) (tok : String)
    (h : tok ∈ m.map Prod.fst) :
    (bumpCount m tok).map Prod.fst = m.map Prod.fst := by
  induction m with
  | nil => simp at h
  | cons p rest ih =>
    obtain ⟨k, n⟩ := p
    by_cases hk : k = tok
    · simp [bumpCount, hk]
    · have h' : tok ∈ rest.map Prod.fst := by
        simp only [List.map_cons] at h
        rcases List.mem_cons.mp h with h1 | h1
        · exact absurd h1.symm hk
        · exact h1
      simp [bumpCount, hk, ih h']

lemma bumpCount_keys_of_not_mem (m : List (String × Nat)) (tok : String)
    (h : tok ∉ m.map Prod.fst) :
    (bumpCount m tok).map Prod.fst = m.map Prod.fst ++ [tok] := by
  induction m with
  | nil => simp [bumpCount]
  | cons p rest ih =>
    obtain ⟨k, n⟩ := p
    by_cases hk : k = tok
    · exact absurd (by simp [hk]) h
    · have h' : tok ∉ rest.map Prod.fst := fun hc => h (by simp [hc])
      simp [bumpCount, hk, ih h']

lemma countFold_key_order (toks : List String) :
    ∀ (rest pre : List String) (acc : List (String × Nat)),
    toks = pre ++ rest →
    (∀ w ∈ acc.map Prod.fst, w ∈ pre) →
    (∀ w ∈ pre, w ∈ acc.map Prod.fst) →
    (acc.map Prod.fst).Pairwise (fun a b => toks.indexOf a < toks.indexOf b) →
    ((rest.foldl bumpCount acc).map Prod.fst).Pairwise
        (fun a b => toks.indexOf a < toks.indexOf b) ∧
    (∀ w ∈ (rest.foldl bumpCount acc).map Prod.fst, w ∈ toks) ∧
    (∀ w ∈ toks, w ∈ (rest.foldl bumpCount acc).map Prod.fst) := by
  intro rest
  induction rest with
  | nil =>
    intro pre acc h0 h1 h2 h3
    refine ⟨h3, ?_, ?_⟩
    · intro w hw; rw [h0]; exact List.mem_append_left _ (h1 w hw)
    · intro w hw
      rw [h0] at hw
      rcases List.mem_append.mp hw with h | h
      · exact h2 w h
      · simp at h
  | cons t rest' ih =>
    intro pre acc h0 h1 h2 h3
    simp only [List.foldl_cons]
    by_cases ht : t ∈ acc.map Prod.fst
    · refine ih (pre ++ [t]) (bumpCount acc t) (by rw [h0]; simp) ?_ ?_ ?_
      · intro w hw
        rw [bumpCount_keys_of_mem acc t ht] at hw
        exact List.mem_append_left _ (h1 w hw)
      · intro w hw
        rw [bumpCount_keys_of_mem acc t ht]
        rcases List.mem_append.mp hw with h | h
        · exact h2 w h
        · simp at h; subst h; exact ht
      · rw [bumpCount_keys_of_mem acc t ht]; exact h3
    · refine ih (pre ++ [t]) (bumpCount acc t) (by rw [h0]; simp) ?_ ?_ ?_
      · intro w hw
        rw [bumpCount_keys_of_not_mem acc t ht] at hw
        rcases List.mem_append.mp hw with h | h
        · exact List.mem_append_left _ (h1 w h)
        · simp at h; subst h; simp
      · intro w hw
        rw [bumpCount_keys_of_not_mem acc t ht]
        rcases List.mem_append.mp hw with h | h
        · exact List.mem_append_left _ (h2 w h)
        · simp at h; subst h; simp
      · rw [bumpCount_keys_of_not_mem acc t ht]
        rw [List.pairwise_append]
        refine ⟨h3, by simp, ?_⟩
        intro a ha b hb
        simp at hb
        rw [hb]
        have hapre : a ∈ pre := h1 a ha
        have htpre : t ∉ pre := fun hc => ht (h2 t hc)
        have h4 : toks.indexOf a < pre.length := by
          rw [h0, List.indexOf_append_of_mem hapre]
          exact List.indexOf_lt_length.mpr hapre
        have h5 : pre.length ≤ toks.indexOf t := by
          rw [h0, List.indexOf_append_of_not_mem htpre]
          omega
        omega

lemma countFreqs_key_order (toks : List String) :
    ((countFreqs toks).map Prod.fst).Pairwise
        (fun a b => toks.indexOf a < toks.indexOf b) ∧
    (∀ w ∈ (countFreqs toks).map Prod.fst, w ∈ toks) ∧
    (∀ w ∈ toks, w ∈ (countFreqs toks).map Prod.fst) :=
  countFold_key_order toks toks [] [] rfl (by simp) (by simp) (by simp)

lemma countFreqs_keys_nodup (toks : List String) :
    ((countFreqs toks).map Prod.fst).Nodup :=
  List.Pairwise.imp (fun h => by intro he; subst he; omega)
    (countFreqs_key_order toks).1

lemma lookup_of_mem_nodup {l : List (String × Nat)}
    (hnd : (l.map Prod.fst).Nodup) {p : String × Nat} (hp : p ∈ l) :
    l.lookup p.1 = some p.2 := by
  induction l with
  | nil => simp at hp
  | cons q rest ih =>
    obtain ⟨k, n⟩ := q
    rcases List.mem_cons.mp hp with h | h
    · subst h; simp
    · have hk : p.1 ≠ k := by
        intro he
        have h1 : p.1 ∈ rest.map Prod.fst := List.mem_map_of_mem Prod.fst h
        rw [he] at h1
        simp only [List.map_cons, List.nodup_cons] at hnd
        exact hnd.1 h1
      have hbeq : (p.1 == k) = false := beq_eq_false_iff_ne.mpr hk
      rw [List.lookup_cons]
      simp only [hbeq]
      exact ih (by simpa using hnd.of_cons) h

lemma frqOf_eq {toks : List String} {p : String × Nat}
    (hp : p ∈ countFreqs toks) : frqOf toks p.1 = p.2 := by
  unfold frqOf
  rw [lookup_of_mem_nodup (countFreqs_keys_nodup toks) hp]
  rfl

end W2Vec

namespace W2Vec

lemma insertDesc_mem {x : String × Nat} {l : List (String × Nat)} {z : String × Nat}
    (hz : z ∈ insertDesc x l) : z = x ∨ z ∈ l := by
  induction l with
  | nil => simpa [insertDesc] using hz
  | cons y ys ih =>
    by_cases h : x.2 ≤ y.2
    · simp only [insertDesc, if_pos h] at hz
      rcases List.mem_cons.mp hz with h1 | h1
      · right; simp [h1]
      · rcases ih h1 with h2 | h2
        · left; exact h2
        · right; simp [h2]
    · simp only [insertDesc, if_neg h] at hz
      rcases List.mem_cons.mp hz with h1 | h1
      · left; exact h1
      · right; exact h1

lemma insertDesc_pairwise {toks : List String} {x : String × Nat}
    {l : List (String × Nat)} (hl : l.Pairwise (EntryBefore toks))
    (hx : ∀ y ∈ l, toks.indexOf y.1 < toks.indexOf x.1) :
    (insertDesc x l).Pairwise (EntryBefore toks) := by
  induction l with
  | nil => simp [insertDesc]
  | cons y ys ih =>
    have hyys : ∀ z ∈ ys, EntryBefore toks y z :=
      fun z hz => List.rel_of_pairwise_cons hl hz
    have hys := hl.of_cons
    by_cases h : x.2 ≤ y.2
    · simp only [insertDesc, if_pos h]
      refine List.pairwise_cons.mpr
        ⟨?_, ih hys (fun z hz => hx z (List.mem_cons_of_mem _ hz))⟩
      intro z hz
      rcases insertDesc_mem hz with h1 | h1
      · rw [h1]
        rcases lt_or_eq_of_le h with hlt | heq
        · left; exact hlt
        · right; exact ⟨heq.symm, hx y (by simp)⟩
      · exact hyys z h1
    · simp only [insertDesc, if_neg h]
      push_neg at h
      refine List.pairwise_cons.mpr ⟨?_, hl⟩
      intro z hz
      rcases List.mem_cons.mp hz with h1 | h1
      · rw [h1]; left; exact h
      · have h2 := hyys z h1
        rcases h2 with h3 | h3
        · left; omega
        · left; omega

lemma sortFold_pairwise {toks : List String} :
    ∀ (l acc : List (String × Nat)),
    l.Pairwise (fun p q => toks.indexOf p.1 < toks.indexOf q.1) →
    acc.Pairwise (EntryBefore toks) →
    (∀ y ∈ acc, ∀ x ∈ l, toks.indexOf y.1 < toks.indexOf x.1) →
    (l.foldl (fun a x => insertDesc x a) acc).Pairwise (EntryBefore toks) := by
  intro l
  induction l with
  | nil => intro acc _ hacc _; simpa using hacc
  | cons x xs ih =>
    intro acc hl hacc hcross
    simp only [List.foldl_cons]
    refine ih (insertDesc x acc) hl.of_cons ?_ ?_
    · exact insertDesc_pairwise hacc (fun y hy => hcross y hy x (by simp))
    · intro y hy z hz
      rcases insertDesc_mem hy with h1 | h1
      · rw [h1]; exact List.rel_of_pairwise_cons hl hz
      · exact hcross y h1 z (List.mem_cons_of_mem _ hz)

lemma sortFrqDesc_pairwise {toks : List String} {l : List (String × Nat)}
    (hl : l.Pairwise (fun p q => toks.indexOf p.1 < toks.indexOf q.1)) :
    (sortFrqDesc l).Pairwise (EntryBefore toks) :=
  sortFold_pairwise l [] hl (by simp) (by simp)

lemma insertDesc_perm (x : String × Nat) (l : List (String × Nat)) :
    List.Perm (insertDesc x l) (x :: l) := by
  induction l with
  | nil => rfl
  | cons y ys ih =>
    by_cases h : x.2 ≤ y.2
    · simp only [insertDesc, if_pos h]
      exact (ih.cons y).trans (List.Perm.swap x y ys)
    · simp [insertDesc, if_neg h]

lemma sortFold_perm : ∀ (l acc : List (String × Nat)),
    List.Perm (l.foldl (fun a x => insertDesc x a) acc) (acc ++ l) := by
  intro l
  induction l with
  | nil => intro acc; simp
  | cons x xs ih =>
    intro acc
    simp only [List.foldl_cons]
    refine ((ih (insertDesc x acc)).trans ?_)
    refine (((insertDesc_perm x acc).append_right xs).trans ?_)
    exact List.perm_middle.symm

lemma sortFrqDesc_perm (l : List (String × Nat)) :
    List.Perm (sortFrqDesc l) l := by
  simpa using sortFold_perm l []

end W2Vec

namespace W2Vec

lemma buildLoop_idx (max_size min_freq : Nat) :
    ∀ (l : List (String × Nat)) (v : Vocab),
    (buildLoop max_size min_freq v l).idx_to_tok =
      v.idx_to_tok ++
        (buildTake v.idx_to_tok.length max_size min_freq l).map Prod.fst := by
  intro l
  induction l with
  | nil => intro v; simp [buildLoop, buildTake]
  | cons p rest ih =>
    intro v
    obtain ⟨w, f⟩ := p
    by_cases h1 : v.idx_to_tok.length = max_size
    · simp [buildLoop, buildTake, h1]
    · by_cases h2 : f < min_freq
      · simp [buildLoop, buildTake, h1, h2]
      · simp only [buildLoop, buildTake, if_neg h1, if_neg h2]
        rw [ih]
        simp [List.length_append]

lemma buildTake_eq_take (max_size min_freq : Nat) :
    ∀ (l : List (String × Nat)) (len0 : Nat),
    ∃ k, buildTake len0 max_size min_freq l = l.take k := by
  intro l
  induction l with
  | nil => intro len0; exact ⟨0, by simp [buildTake]⟩
  | cons p rest ih =>
    intro len0
    obtain ⟨w, f⟩ := p
    by_cases h1 : len0 = max_size
    · exact ⟨0, by simp [buildTake, h1]⟩
    · by_cases h2 : f < min_freq
      · exact ⟨0, by simp [buildTake, h1, h2]⟩
      · obtain ⟨k, hk⟩ := ih (len0 + 1)
        exact ⟨k + 1, by simp [buildTake, h1, h2, hk]⟩

lemma buildTake_minfreq (max_size min_freq : Nat) :
    ∀ (l : List (String × Nat)) (len0 : Nat),
    ∀ p ∈ buildTake len0 max_size min_freq l, min_freq ≤ p.2 := by
  intro l
  induction l with
  | nil => intro len0 p hp; simp [buildTake] at hp
  | cons q rest ih =>
    intro len0 p hp
    obtain ⟨w, f⟩ := q
    by_cases h1 : len0 = max_size
    · simp [buildTake, h1] at hp
    · by_cases h2 : f < min_freq
      · simp [buildTake, h1, h2] at hp
      · simp only [buildTake, if_neg h1, if_neg h2] at hp
        rcases List.mem_cons.mp hp with h3 | h3
        · rw [h3]; omega
        · exact ih (len0 + 1) p h3

lemma buildLoop_size (max_size min_freq : Nat) :
    ∀ (l : List (String × Nat)) (v : Vocab),
    v.idx_to_tok.length ≤ max_size →
    (buildLoop max_size min_freq v l).idx_to_tok.length ≤ max_size := by
  intro l
  induction l with
  | nil => intro v hv; simpa [buildLoop] using hv
  | cons p rest ih =>
    intro v hv
    obtain ⟨w, f⟩ := p
    by_cases h1 : v.idx_to_tok.length = max_size
    · simp only [buildLoop, if_pos h1]; exact hv
    · by_cases h2 : f < min_freq
      · simpa [buildLoop, h1, h2] using hv
      · simp only [buildLoop, if_neg h1, if_neg h2]
        exact ih _ (by simp [List.length_append]; omega)

lemma buildLoop_nocap (min_freq : Nat) :
    ∀ (l : List (String × Nat)) (v : Vocab),
    l.Pairwise (fun p q => q.2 ≤ p.2) →
    0 < v.idx_to_tok.length →
    ∀ p ∈ l, min_freq ≤ p.2 →
    p.1 ∈ (buildLoop 0 min_freq v l).idx_to_tok := by
  intro l
  induction l with
  | nil => intro v _ _ p hp; simp at hp
  | cons q rest ih =>
    intro v hsort hv p hp hmf
    obtain ⟨w, f⟩ := q
    have h1 : ¬ v.idx_to_tok.length = 0 := by omega
    by_cases h2 : f < min_freq
    · exfalso
      rcases List.mem_cons.mp hp with h3 | h3
      · rw [h3] at hmf; simp at hmf; omega
      · have : p.2 ≤ f := List.rel_of_pairwise_cons hsort h3
        omega
    · simp only [buildLoop, if_neg h1, if_neg h2]
      rcases List.mem_cons.mp hp with h3 | h3
      · rw [buildLoop_idx]
        rw [h3]
        exact List.mem_append_left _ (by simp)
      · exact ih _ hsort.of_cons (by simp [List.length_append]) p h3 hmf

/-- Claim C4: after `Vocab.build`, index 0 holds the sentinel `<unk>`;
indices 1.. hold corpus tokens in non-increasing frequency order with ties
broken by first-encounter order; every included token has frequency at
least `min_freq`; a positive `max_size` caps the total table size; and
`max_size = 0` applies no cap (every corpus token of sufficient frequency
is included). -/
theorem claim_C4_vocab_build (toks : List String) (min_freq max_size : Nat) :
    (Vocab.build toks min_freq max_size).idx_to_tok.get? 0 = some str_unk ∧
    ((Vocab.build toks min_freq max_size).idx_to_tok.tail).Pairwise
      (fun a b => frqOf toks b < frqOf toks a ∨
        (frqOf toks a = frqOf toks b ∧ toks.indexOf a < toks.indexOf b)) ∧
    (∀ w ∈ (Vocab.build toks min_freq max_size).idx_to_tok.tail,
        min_freq ≤ frqOf toks w ∧ w ∈ toks) ∧
    (0 < max_size →
        (Vocab.build toks min_freq max_size).idx_to_tok.length ≤ max_size) ∧
    (max_size = 0 → ∀ w ∈ toks, min_freq ≤ frqOf toks w →
        w ∈ (Vocab.build toks min_freq max_size).idx_to_tok) := by
  have hperm := sortFrqDesc_perm (countFreqs toks)
  have hmemsort : ∀ p ∈ sortFrqDesc (countFreqs toks), p ∈ countFreqs toks :=
    fun p hp => hperm.mem_iff.mp hp
  have hentry : (countFreqs toks).Pairwise
      (fun p q => toks.indexOf p.1 < toks.indexOf q.1) := by
    have h := (countFreqs_key_order toks).1
    rw [List.pairwise_map] at h
    exact h
  have hSsort : (sortFrqDesc (countFreqs toks)).Pairwise (EntryBefore toks) :=
    sortFrqDesc_pairwise hentry
  obtain ⟨k, hk⟩ := buildTake_eq_take max_size min_freq (sortFrqDesc (countFreqs toks)) 1
  have hsub : List.Sublist (buildTake 1 max_size min_freq (sortFrqDesc (countFreqs toks)))
      (sortFrqDesc (countFreqs toks)) := by
    rw [hk]; exact List.take_sublist k _
  have hmemtake : ∀ p ∈ buildTake 1 max_size min_freq (sortFrqDesc (countFreqs toks)),
      p ∈ countFreqs toks :=
    fun p hp => hmemsort p (hsub.subset hp)
  have hidx : (Vocab.build toks min_freq max_size).idx_to_tok =
      str_unk ::
        (buildTake 1 max_size min_freq (sortFrqDesc (countFreqs toks))).map Prod.fst := by
    unfold Vocab.build
    rw [buildLoop_idx]
    simp
  refine ⟨?_, ?_, ?_, ?_, ?_⟩
  · rw [hidx]; rfl
  · rw [hidx]
    simp only [List.tail_cons]
    have htakeS : (buildTake 1 max_size min_freq (sortFrqDesc (countFreqs toks))).Pairwise
        (EntryBefore toks) := List.Pairwise.sublist hsub hSsort
    have htakeS' : (buildTake 1 max_size min_freq (sortFrqDesc (countFreqs toks))).Pairwise
        (fun p q => frqOf toks q.1 < frqOf toks p.1 ∨
          (frqOf toks p.1 = frqOf toks q.1 ∧ toks.indexOf p.1 < toks.indexOf q.1)) := by
      refine htakeS.imp_of_mem ?_
      intro a b ha hb hR
      rw [frqOf_eq (hmemtake a ha), frqOf_eq (hmemtake b hb)]
      exact hR
    exact List.pairwise_map.mpr htakeS'
  · rw [hidx]
    simp only [List.tail_cons]
    intro w hw
    rcases List.mem_map.mp hw with ⟨p, hp, hpw⟩
    constructor
    · rw [← hpw, frqOf_eq (hmemtake p hp)]
      exact buildTake_minfreq max_size min_freq _ 1 p hp
    · rw [← hpw]
      exact (countFreqs_key_order toks).2.1 p.1
        (List.mem_map_of_mem Prod.fst (hmemtake p hp))
  · intro hms
    unfold Vocab.build
    exact buildLoop_size max_size min_freq _ _ (by simpa using hms)
  · intro hms w hw hmf
    subst hms
    have hkey : w ∈ (countFreqs toks).map Prod.fst :=
      (countFreqs_key_order toks).2.2 w hw
    rcases List.mem_map.mp hkey with ⟨p, hp, hpw⟩
    have hps : p ∈ sortFrqDesc (countFreqs toks) := hperm.mem_iff.mpr hp
    have hwdesc : (sortFrqDesc (countFreqs toks)).Pairwise
        (fun p q : String × Nat => q.2 ≤ p.2) := by
      refine hSsort.imp ?_
      intro a b hab
      rcases hab with h | h
      · omega
      · omega
    have hmfp : min_freq ≤ p.2 := by
      rw [← hpw, frqOf_eq hp] at hmf
      exact hmf
    have := buildLoop_nocap min_freq (sortFrqDesc (countFreqs toks))
      ⟨[str_unk], [(str_unk, idx_unk)]⟩ hwdesc (by simp) p hps hmfp
    rw [← hpw]
    exact this

/-- Witness for claim C4: on the concrete stream `b a b` the built table is
exactly `[<unk>, b, a]`; with `max_size = 0` the sufficiently frequent
token `a` is included, and with `max_size = 2` the table size stays ≤ 2. -/
theorem claim_C4_witness :
    (Vocab.build ["b", "a", "b"] 1 0).idx_to_tok.get? 0 = some str_unk ∧
    "a" ∈ (Vocab.build ["b", "a", "b"] 1 0).idx_to_tok ∧
    (Vocab.build ["b", "a", "b"] 1 2).idx_to_tok.length ≤ 2 :=
  ⟨(claim_C4_vocab_build ["b", "a", "b"] 1 0).1,
   (claim_C4_vocab_build ["b", "a", "b"] 1 0).2.2.2.2 rfl "a" (by decide) (by decide),
   (claim_C4_vocab_build ["b", "a", "b"] 1 2).2.2.2.1 (by decide)⟩

end W2Vec

namespace W2Vec

lemma getD_snoc {α : Type} (l : List α) (x : α) (k : Nat) (d : α) :
    (l ++ [x]).getD k d =
      if k < l.length then l.getD k d else if k = l.length then x else d := by
  induction l generalizing k with
  | nil =>
    cases k with
    | zero => simp [List.getD]
    | succ k' => simp [List.getD]
  | cons a l ih =>
    cases k with
    | zero => simp
    | succ k' =>
      simp only [List.cons_append, List.getD_cons_succ, ih, List.length_cons]
      by_cases h1 : k' < l.length
      · rw [if_pos h1, if_pos (show k' + 1 < l.length + 1 by omega)]
      · rw [if_neg h1, if_neg (show ¬ k' + 1 < l.length + 1 by omega)]
        by_cases h2 : k' = l.length
        · rw [if_pos h2, if_pos (show k' + 1 = l.length + 1 by omega)]
        · rw [if_neg h2, if_neg (show ¬ k' + 1 = l.length + 1 by omega)]

lemma pickNeg_spec {vs wrd : Nat} {ctx : List Nat} {draws : Nat → Nat}
    (hdr : ∀ n, 1 ≤ draws n ∧ draws n ≤ vs - 1) :
    ∀ fuel pos idx pos', pickNeg wrd ctx draws fuel pos = some (idx, pos') →
    1 ≤ idx ∧ idx ≤ vs - 1 ∧ idx ∉ ctx ∧ idx ≠ wrd := by
  intro fuel
  induction fuel with
  | zero => intro pos idx pos' h; simp [pickNeg] at h
  | succ f ih =>
    intro pos idx pos' h
    by_cases hc : draws pos ∈ ctx ∨ draws pos = wrd
    · rw [pickNeg, if_pos hc] at h
      exact ih _ _ _ h
    · rw [pickNeg, if_neg hc] at h
      push_neg at hc
      have h1 : draws pos = idx := congrArg Prod.fst (Option.some.inj h)
      subst h1
      exact ⟨(hdr pos).1, (hdr pos).2, hc.1, hc.2⟩

lemma pickNegs_spec {vs wrd : Nat} {ctx : List Nat} {draws : Nat → Nat}
    (hdr : ∀ n, 1 ≤ draws n ∧ draws n ≤ vs - 1) :
    ∀ n fuel pos negs pos', pickNegs wrd ctx draws fuel n pos = some (negs, pos') →
    negs.length = n ∧
      ∀ x ∈ negs, 1 ≤ x ∧ x ≤ vs - 1 ∧ x ∉ ctx ∧ x ≠ wrd := by
  intro n
  induction n with
  | zero =>
    intro fuel pos negs pos' h
    simp only [pickNegs] at h
    have h1 : ([] : List Nat) = negs := congrArg Prod.fst (Option.some.inj h)
    subst h1
    exact ⟨rfl, by simp⟩
  | succ m ih =>
    intro fuel pos negs pos' h
    simp only [pickNegs] at h
    cases h1 : pickNeg wrd ctx draws fuel pos with
    | none => rw [h1] at h; simp at h
    | some pr =>
      obtain ⟨idx, posA⟩ := pr
      rw [h1] at h
      dsimp only at h
      cases h2 : pickNegs wrd ctx draws fuel m posA with
      | none => rw [h2] at h; simp at h
      | some pr2 =>
        obtain ⟨negs2, posB⟩ := pr2
        rw [h2] at h
        dsimp only at h
        have h3 : idx :: negs2 = negs := congrArg Prod.fst (Option.some.inj h)
        subst h3
        obtain ⟨hl, hall⟩ := ih fuel posA negs2 posB h2
        obtain ⟨a1, a2, a3, a4⟩ := pickNeg_spec hdr fuel pos idx posA h1
        refine ⟨by simp [hl], ?_⟩
        intro x hx
        rcases List.mem_cons.mp hx with h4 | h4
        · rw [h4]; exact ⟨a1, a2, a3, a4⟩
        · exact hall x h4

lemma goodBatch_empty (p : DsParams) : GoodBatch p emptyBatch :=
  ⟨rfl, rfl, by intro k hk; simp [emptyBatch] at hk⟩

lemma goodBatch_snoc (p : DsParams) (b : Batch)
    (hb : GoodBatch p b) (wrd : Nat) (ctx neg : List Nat)
    (snts : List (List Nat)) (lens : List Nat)
    (hneg : neg.length = p.n_negs)
    (hx : ∀ x ∈ neg, 1 ≤ x ∧ x ≤ p.vocab_size - 1 ∧ x ≠ wrd ∧ x ∉ ctx) :
    GoodBatch p
      { wrd := b.wrd ++ [wrd], ctx := b.ctx ++ [ctx], neg := b.neg ++ [neg],
        snt := snts, len := lens } := by
  obtain ⟨h1, h2, h3⟩ := hb
  refine ⟨by simp [h1], by simp [h2], ?_⟩
  intro k hk
  simp only [List.length_append, List.length_cons, List.length_nil] at hk
  by_cases hk2 : k < b.wrd.length
  · have e1 : (b.neg ++ [neg]).getD k [] = b.neg.getD k [] := by
      rw [getD_snoc, if_pos (by omega)]
    have e2 : (b.wrd ++ [wrd]).getD k 0 = b.wrd.getD k 0 := by
      rw [getD_snoc, if_pos (by omega)]
    have e3 : (b.ctx ++ [ctx]).getD k [] = b.ctx.getD k [] := by
      rw [getD_snoc, if_pos (by omega)]
    simp only [e1, e2, e3]
    exact h3 k hk2
  · have hk3 : k = b.wrd.length := by omega
    have e1 : (b.neg ++ [neg]).getD k [] = neg := by
      rw [getD_snoc, if_neg (by omega), if_pos (by omega)]
    have e2 : (b.wrd ++ [wrd]).getD k 0 = wrd := by
      rw [getD_snoc, if_neg (by omega), if_pos (by omega)]
    have e3 : (b.ctx ++ [ctx]).getD k [] = ctx := by
      rw [getD_snoc, if_neg (by omega), if_pos (by omega)]
    simp only [e1, e2, e3]
    exact ⟨hneg, hx⟩

lemma foldlM_option_inv {σ α : Type} (f : σ → α → Option σ) (P : σ → Prop)
    (hf : ∀ s a s', P s → f s a = some s' → P s') :
    ∀ (l : List α) (s s' : σ), P s → l.foldlM f s = some s' → P s' := by
  intro l
  induction l with
  | nil => intro s s' hs h; simp only [List.foldlM_nil] at h; cases h; exact hs
  | cons a l ih =>
    intro s s' hs h
    simp only [List.foldlM_cons] at h
    cases h1 : f s a with
    | none => rw [h1] at h; simp at h
    | some s1 =>
      rw [h1] at h
      exact ih s1 s' (hf s a s1 hs h1) h

lemma foldlM_option_none {σ α : Type} (f : σ → α → Option σ) :
    ∀ (l : List α), (∃ a ∈ l, ∀ s, f s a = none) →
    ∀ s : σ, l.foldlM f s = none := by
  intro l
  induction l with
  | nil => intro h s; rcases h with ⟨a, ha, -⟩; simp at ha
  | cons b l ih =>
    intro h s
    rcases h with ⟨a, ha, hfa⟩
    simp only [List.foldlM_cons]
    rcases List.mem_cons.mp ha with h1 | h1
    · rw [h1] at hfa
      rw [hfa s]
      rfl
    · cases h2 : f s b with
      | none => rfl
      | some s1 =>
        exact ih ⟨a, h1, hfa⟩ s1

end W2Vec

namespace W2Vec

lemma stepPos_inv (p : DsParams) (draws : Nat → Nat) (fuel : Nat)
    (toks : List Nat)
    (hdr : ∀ n, 1 ≤ draws n ∧ draws n ≤ p.vocab_size - 1) :
    ∀ (st : BState) (i : Nat) (st' : BState), StInv p st →
    stepPos p draws fuel toks st i = some st' → StInv p st' := by
  intro st i st' hst h
  simp only [stepPos] at h
  cases hpk : pickNegs (toks.getD i 0) (mkCtx p.window p.idx_pad toks i)
      draws fuel p.n_negs st.pos with
  | none => rw [hpk] at h; simp at h
  | some pr =>
    obtain ⟨neg, pos'⟩ := pr
    rw [hpk] at h
    dsimp only at h
    obtain ⟨hlen, hxs⟩ := pickNegs_spec hdr p.n_negs fuel st.pos neg pos' hpk
    have hxs' : ∀ x ∈ neg, 1 ≤ x ∧ x ≤ p.vocab_size - 1 ∧
        x ≠ toks.getD i 0 ∧ x ∉ mkCtx p.window p.idx_pad toks i := by
      intro x hx
      obtain ⟨a1, a2, a3, a4⟩ := hxs x hx
      exact ⟨a1, a2, a4, a3⟩
    split at h
    · cases h
      refine ⟨?_, goodBatch_empty p⟩
      intro b hb
      rcases List.mem_append.mp hb with h1 | h1
      · exact hst.1 b h1
      · simp only [List.mem_cons, List.not_mem_nil, or_false] at h1
        rw [h1]
        exact goodBatch_snoc p st.cur hst.2 _ _ _ _ _ hlen hxs'
    · cases h
      exact ⟨hst.1, goodBatch_snoc p st.cur hst.2 _ _ _ _ _ hlen hxs'⟩

lemma stepSent_inv (p : DsParams) (draws : Nat → Nat) (fuel : Nat)
    (hdr : ∀ n, 1 ≤ draws n ∧ draws n ≤ p.vocab_size - 1) :
    ∀ (st : BState) (toks : List Nat) (st' : BState), StInv p st →
    stepSent p draws fuel st toks = some st' → StInv p st' := by
  intro st toks st' hst h
  unfold stepSent at h
  by_cases hlen : toks.length < 2
  · rw [if_pos hlen] at h; cases h; exact hst
  · rw [if_neg hlen] at h
    exact foldlM_option_inv _ (StInv p)
      (fun s a s' hs hfa => stepPos_inv p draws fuel toks hdr s a s' hs hfa)
      _ st st' hst h

/-- Claim C5: every training example emitted by `Dataset.build_batchs` has
exactly `n_negs` negative samples, each lying in `1 .. vocab_size-1` and
equal neither to the example's centre word nor to any index of its
context window. -/
theorem claim_C5_negative_samples (p : DsParams) (draws : Nat → Nat)
    (fuel : Nat) (corpus : List (List Nat)) (bs : List Batch)
    (hdr : ∀ n, 1 ≤ draws n ∧ draws n ≤ p.vocab_size - 1)
    (hb : build_batchs p draws fuel corpus = some bs) :
    ∀ b ∈ bs, GoodBatch p b := by
  unfold build_batchs at hb
  cases hfold : ((argsortByLen corpus).map Prod.snd).foldlM
      (stepSent p draws fuel) ⟨[], emptyBatch, 0⟩ with
  | none => rw [hfold] at hb; simp at hb
  | some st =>
    rw [hfold] at hb
    dsimp only at hb
    have hinv : StInv p st := by
      refine foldlM_option_inv _ (StInv p) ?_ _ _ st ?_ hfold
      · exact fun s a s' hs hfa => stepSent_inv p draws fuel hdr s a s' hs hfa
      · exact ⟨by intro b hb2; simp at hb2, goodBatch_empty p⟩
    by_cases hne : st.cur.wrd.length ≠ 0
    · rw [if_pos hne] at hb
      cases hb
      intro b hbmem
      rcases List.mem_append.mp hbmem with h1 | h1
      · exact hinv.1 b h1
      · simp at h1; rw [h1]; exact hinv.2
    · rw [if_neg hne] at hb
      cases hb
      exact hinv.1

end W2Vec

namespace W2Vec

/-- Witness for claim C5: a concrete run (vocab size 4, window 1, 2
negatives per example, draw stream `n % 3 + 1`) on the corpus `[[1, 2]]`
emits one batch whose negative lists all satisfy the claimed property. -/
theorem claim_C5_witness :
    (∀ n : Nat, 1 ≤ n % 3 + 1 ∧ n % 3 + 1 ≤ (4 : Nat) - 1) ∧
    build_batchs ⟨2, 1, 2, 4, 0⟩ (fun k => k % 3 + 1) 9 [[1, 2]] =
      some [⟨[1, 2], [[0, 2], [1, 0]], [[3, 3], [3, 3]], [[2], [1]], [1, 1]⟩] ∧
    ∀ b ∈ [(⟨[1, 2], [[0, 2], [1, 0]], [[3, 3], [3, 3]], [[2], [1]],
        [1, 1]⟩ : Batch)],
      GoodBatch ⟨2, 1, 2, 4, 0⟩ b :=
  ⟨fun n => ⟨by omega, by omega⟩, by decide,
   claim_C5_negative_samples ⟨2, 1, 2, 4, 0⟩ (fun k => k % 3 + 1) 9 [[1, 2]] _
     (fun n => ⟨by show 1 ≤ n % 3 + 1; omega,
                by show n % 3 + 1 ≤ 4 - 1; omega⟩) (by decide)⟩

end W2Vec

namespace W2Vec

lemma inferStep_inv (batch_size : Nat) (st : InferState) (x : Nat × List Nat)
    (h1 : ∀ b ∈ st.batchs, b.len = b.snt) (h2 : st.cur.len = st.cur.snt) :
    (∀ b ∈ (inferStep batch_size st x).batchs, b.len = b.snt) ∧
    (inferStep batch_size st x).cur.len = (inferStep batch_size st x).cur.snt := by
  unfold inferStep
  dsimp only
  split
  · refine ⟨?_, rfl⟩
    intro b hb
    rcases List.mem_append.mp hb with h3 | h3
    · exact h1 b h3
    · simp only [List.mem_cons, List.not_mem_nil, or_false] at h3
      rw [h3]
      simp [h2]
  · exact ⟨h1, by simp [h2]⟩

lemma inferFold_len_eq_snt (batch_size : Nat) :
    ∀ (l : List (Nat × List Nat)) (st : InferState),
    (∀ b ∈ st.batchs, b.len = b.snt) → st.cur.len = st.cur.snt →
    (∀ b ∈ (l.foldl (inferStep batch_size) st).batchs, b.len = b.snt) ∧
    (l.foldl (inferStep batch_size) st).cur.len =
      (l.foldl (inferStep batch_size) st).cur.snt := by
  intro l
  induction l with
  | nil => intro st h1 h2; exact ⟨h1, h2⟩
  | cons x xs ih =>
    intro st h1 h2
    simp only [List.foldl_cons]
    obtain ⟨g1, g2⟩ := inferStep_inv batch_size st x h1 h2
    exact ih (inferStep batch_size st x) g1 g2

/-- Claim C7 (code bug): in every batch emitted by
`build_batchs_infer_sent`, the "length marker" component is the list of
the batch's sentences themselves, not their integer token counts: line 252
appends `batch_snt[-1]` into `batch_len`.  Concretely, for the one-sentence
corpus `[[5, 6]]` with batch size 1, the emitted batch stores `[[5, 6]]`
where the claim expects the count `[2]`. -/
theorem claim_C7_infer_len_marker (batch_size : Nat)
    (corpus : List (List Nat)) :
    (∀ b ∈ build_batchs_infer_sent batch_size corpus, b.len = b.snt) ∧
    build_batchs_infer_sent 1 [[5, 6]] = [⟨[[5, 6]], [[5, 6]], [0]⟩] := by
  constructor
  · intro b hb
    unfold build_batchs_infer_sent at hb
    have hinv := inferFold_len_eq_snt batch_size (argsortByLen corpus)
      ⟨[], ⟨[], [], []⟩⟩ (by intro b2 hb2; simp at hb2) rfl
    dsimp only at hb
    split at hb
    · rcases List.mem_append.mp hb with h1 | h1
      · exact hinv.1 b h1
      · simp only [List.mem_cons, List.not_mem_nil, or_false] at h1
        rw [h1]
        exact hinv.2
    · exact hinv.1 b hb
  · rfl

/-- Witness for claim C7: the general clause applied at the concrete
failing input, confirming the stored marker is the sentence `[5, 6]`
(whose token count is 2), not the integer 2. -/
theorem claim_C7_witness :
    (⟨[[5, 6]], [[5, 6]], [0]⟩ : InferBatch) ∈ build_batchs_infer_sent 1 [[5, 6]] ∧
    (⟨[[5, 6]], [[5, 6]], [0]⟩ : InferBatch).len = [[5, 6]] :=
  ⟨by rw [(claim_C7_infer_len_marker 1 [[5, 6]]).2]; simp, rfl⟩

end W2Vec

namespace W2Vec

lemma pickNeg_none (vs wrd : Nat) (ctx : List Nat) (draws : Nat → Nat)
    (hcov : ∀ a, 1 ≤ a → a ≤ vs - 1 → (a ∈ ctx ∨ a = wrd))
    (hdr : ∀ n, 1 ≤ draws n ∧ draws n ≤ vs - 1) :
    ∀ fuel pos, pickNeg wrd ctx draws fuel pos = none := by
  intro fuel
  induction fuel with
  | zero => intro pos; rfl
  | succ f ih =>
    intro pos
    have hc : draws pos ∈ ctx ∨ draws pos = wrd :=
      hcov (draws pos) (hdr pos).1 (hdr pos).2
    rw [pickNeg, if_pos hc]
    exact ih (pos + 1)

lemma pickNeg_one (wrd : Nat) (ctx : List Nat) (draws : Nat → Nat) (pos : Nat)
    (h : ¬ (draws pos ∈ ctx ∨ draws pos = wrd)) :
    pickNeg wrd ctx draws 1 pos = some (draws pos, pos + 1) := by
  rw [pickNeg, if_neg h]

lemma insertAscPair_perm (x : Nat × List Nat) (l : List (Nat × List Nat)) :
    List.Perm (insertAscPair x l) (x :: l) := by
  induction l with
  | nil => rfl
  | cons y ys ih =>
    by_cases h : y.2.length ≤ x.2.length
    · simp only [insertAscPair, if_pos h]
      exact (ih.cons y).trans (List.Perm.swap x y ys)
    · simp [insertAscPair, if_neg h]

lemma ascFold_perm : ∀ (l acc : List (Nat × List Nat)),
    List.Perm (l.foldl (fun a x => insertAscPair x a) acc) (acc ++ l) := by
  intro l
  induction l with
  | nil => intro acc; simp
  | cons x xs ih =>
    intro acc
    simp only [List.foldl_cons]
    refine ((ih (insertAscPair x acc)).trans ?_)
    refine (((insertAscPair_perm x acc).append_right xs).trans ?_)
    exact List.perm_middle.symm

lemma argsortByLen_perm (corpus : List (List Nat)) :
    List.Perm ((argsortByLen corpus).map Prod.snd) corpus := by
  have h1 : List.Perm (argsortByLen corpus) corpus.enum := by
    simpa [argsortByLen] using ascFold_perm corpus.enum []
  have h2 := h1.map Prod.snd
  rwa [List.enum_map_snd] at h2

/-- Claim C10: the per-negative resampling loop of `build_batchs`
terminates on some admissible draw stream exactly when some index of
`1 .. vocab_size-1` avoids both the centre word and the context window;
when the centre word and window cover that whole range the loop returns
nothing for every admissible stream and every bound, and `build_batchs`
itself never terminates (is `none` for every fuel bound) on a corpus all
of whose (≥ 2 token) sentences are covering. -/
theorem claim_C10_resample_termination (p : DsParams) (wrd : Nat)
    (ctx : List Nat) :
    ((∃ draws : Nat → Nat, (∀ n, 1 ≤ draws n ∧ draws n ≤ p.vocab_size - 1) ∧
        ∃ fuel, (pickNeg wrd ctx draws fuel 0).isSome = true) ↔
      (∃ a, 1 ≤ a ∧ a ≤ p.vocab_size - 1 ∧ a ∉ ctx ∧ a ≠ wrd)) ∧
    ((∀ a, 1 ≤ a → a ≤ p.vocab_size - 1 → (a ∈ ctx ∨ a = wrd)) →
      ∀ draws : Nat → Nat, (∀ n, 1 ≤ draws n ∧ draws n ≤ p.vocab_size - 1) →
      ∀ fuel pos, pickNeg wrd ctx draws fuel pos = none) ∧
    (1 ≤ p.n_negs →
      ∀ corpus : List (List Nat), (∃ toks ∈ corpus, 2 ≤ toks.length) →
      (∀ toks ∈ corpus, 2 ≤ toks.length → ∀ i, i < toks.length →
        ∀ a, 1 ≤ a → a ≤ p.vocab_size - 1 →
          (a ∈ mkCtx p.window p.idx_pad toks i ∨ a = toks.getD i 0)) →
      ∀ draws : Nat → Nat, (∀ n, 1 ≤ draws n ∧ draws n ≤ p.vocab_size - 1) →
      ∀ fuel, build_batchs p draws fuel corpus = none) := by
  refine ⟨?_, ?_, ?_⟩
  · constructor
    · rintro ⟨draws, hdr, fuel, hsome⟩
      by_contra hno
      push_neg at hno
      have hcov : ∀ a, 1 ≤ a → a ≤ p.vocab_size - 1 → (a ∈ ctx ∨ a = wrd) := by
        intro a h1 h2
        by_cases hc : a ∈ ctx
        · exact Or.inl hc
        · exact Or.inr (hno a h1 h2 hc)
      rw [pickNeg_none p.vocab_size wrd ctx draws hcov hdr fuel 0] at hsome
      simp at hsome
    · rintro ⟨a, h1, h2, h3, h4⟩
      refine ⟨fun _ => a, fun n => ⟨h1, h2⟩, 1, ?_⟩
      rw [pickNeg_one wrd ctx (fun _ => a) 0 (by simp [h3, h4])]
      rfl
  · intro hcov draws hdr fuel pos
    exact pickNeg_none p.vocab_size wrd ctx draws hcov hdr fuel pos
  · intro hneg corpus hex hcov draws hdr fuel
    obtain ⟨toks₀, hmem, hlen2⟩ := hex
    unfold build_batchs
    have hfold : ((argsortByLen corpus).map Prod.snd).foldlM
        (stepSent p draws fuel) ⟨[], emptyBatch, 0⟩ = none := by
      apply foldlM_option_none
      refine ⟨toks₀, (argsortByLen_perm corpus).mem_iff.mpr hmem, ?_⟩
      intro st
      unfold stepSent
      rw [if_neg (by omega)]
      obtain ⟨m, hm⟩ : ∃ m, toks₀.length = m + 1 + 1 :=
        ⟨toks₀.length - 2, by omega⟩
      have hpick : pickNegs (toks₀.getD 0 0) (mkCtx p.window p.idx_pad toks₀ 0)
          draws fuel p.n_negs st.pos = none := by
        obtain ⟨k, hk⟩ : ∃ k, p.n_negs = k + 1 := ⟨p.n_negs - 1, by omega⟩
        have hno := pickNeg_none p.vocab_size (toks₀.getD 0 0)
          (mkCtx p.window p.idx_pad toks₀ 0) draws
          (fun a ha1 ha2 => hcov toks₀ hmem hlen2 0 (by omega) a ha1 ha2) hdr
        rw [hk]
        simp only [pickNegs]
        rw [hno fuel st.pos]
      have h0 : stepPos p draws fuel toks₀ st 0 = none := by
        simp only [stepPos]
        rw [hpick]
      rw [hm, List.range_succ_eq_map, List.foldlM_cons, h0]
      rfl
    rw [hfold]

end W2Vec

namespace W2Vec

/-- Witness for claim C10: with vocabulary size 2 the only drawable index
is 1; for centre word 1 with context `[1]` the resampling loop yields
nothing (fuel 5), and `build_batchs` on the covering corpus `[[1, 1]]`
yields nothing (fuel 7); with vocabulary size 3 an admissible draw stream
terminating the loop exists. -/
theorem claim_C10_witness :
    pickNeg 1 [1] (fun _ => 1) 5 0 = none ∧
    build_batchs ⟨2, 1, 1, 2, 0⟩ (fun _ => 1) 7 [[1, 1]] = none ∧
    (∃ draws : Nat → Nat, (∀ n, 1 ≤ draws n ∧ draws n ≤ (3 : Nat) - 1) ∧
      ∃ fuel, (pickNeg 1 [1] draws fuel 0).isSome = true) :=
  ⟨(claim_C10_resample_termination ⟨2, 1, 1, 2, 0⟩ 1 [1]).2.1
     (fun a h1 h2 => Or.inr (Nat.le_antisymm h2 h1))
     (fun _ => 1) (fun _ => ⟨Nat.le.refl, Nat.le.refl⟩) 5 0,
   (claim_C10_resample_termination ⟨2, 1, 1, 2, 0⟩ 1 [1]).2.2
     (by decide) [[1, 1]] ⟨[1, 1], by simp, Nat.le.refl⟩
     (by
       intro toks htoks _ i hi a ha1 ha2
       have ht : toks = [1, 1] := by simpa using htoks
       subst ht
       right
       have ha2' : a ≤ 1 := ha2
       have ha : a = 1 := by omega
       subst ha
       have hi2 : i < 2 := by simpa using hi
       interval_cases i <;> rfl)
     (fun _ => 1) (fun _ => ⟨Nat.le.refl, Nat.le.refl⟩) 7,
   (claim_C10_resample_termination ⟨2, 1, 1, 3, 0⟩ 1 [1]).1.mpr
     ⟨2, by omega, Nat.le.refl, by simp, by omega⟩⟩

end W2Vec

namespace W2Vec

/-- Claim C6: saving checkpoints at steps 1..5 with `keep_last_n = 3`
leaves exactly the files for steps 3, 4, 5; a subsequent load picks the
highest step (5), returning its recorded step count and the model and
optimizer state saved at that step; loading with no matching checkpoint
file returns step 0 and the freshly constructed model and optimizer
unchanged. -/
theorem claim_C6_checkpoint_rotation :
    (listCkpts ([1, 2, 3, 4, 5].foldl
        (fun fs n => save_model_optim fs n (10 + n) n 3)
        (⟨[]⟩ : CkptFS Nat Nat)) = [3, 4, 5] ∧
      load_model_optim ([1, 2, 3, 4, 5].foldl
        (fun fs n => save_model_optim fs n (10 + n) n 3)
        (⟨[]⟩ : CkptFS Nat Nat)) 0 0 = (5, 5, 15)) ∧
    (∀ (M O : Type) (m : M) (o : O),
      load_model_optim (⟨[]⟩ : CkptFS M O) m o = (0, m, o)) :=
  ⟨⟨by decide, by decide⟩, fun M O m o => rfl⟩

end W2Vec

namespace FaissCli

instance instDecEqExcept {ε α : Type} [DecidableEq ε] [DecidableEq α] :
    DecidableEq (Except ε α)
  | Except.error e1, Except.error e2 =>
    if h : e1 = e2 then Decidable.isTrue (by rw [h])
    else Decidable.isFalse (by intro hc; cases hc; exact h rfl)
  | Except.error _, Except.ok _ => Decidable.isFalse (by intro hc; cases hc)
  | Except.ok _, Except.error _ => Decidable.isFalse (by intro hc; cases hc)
  | Except.ok a1, Except.ok a2 =>
    if h : a1 = a2 then Decidable.isTrue (by rw [h])
    else Decidable.isFalse (by intro hc; cases hc; exact h rfl)

lemma foldlM_except_const {σ α ε : Type} (f : σ → α → Except ε σ)
    (hf : ∀ s a r, f s a = Except.ok r → r = s) :
    ∀ (l : List α) (s s' : σ), l.foldlM f s = Except.ok s' → s' = s := by
  intro l
  induction l with
  | nil => intro s s' h; simp only [List.foldlM_nil] at h; cases h; rfl
  | cons a l ih =>
    intro s s' h
    simp only [List.foldlM_cons] at h
    cases h1 : f s a with
    | error e => rw [h1] at h; exact Except.noConfusion h
    | ok r =>
      rw [h1] at h
      rw [hf s a r h1] at h
      exact ih s s' h

lemma queryHitsDB_ok_eq (min_score : ℚ) (skip_same_id : Bool) (db : QueryDB)
    (shared shared' : List (String × ℚ))
    (h : queryHitsDB min_score skip_same_id db shared = Except.ok shared') :
    shared' = shared := by
  unfold queryHitsDB at h
  refine foldlM_except_const _ ?_ _ _ _ h
  intro s iq r hr
  refine foldlM_except_const _ ?_ _ _ _ hr
  intro s2 hit r2 hr2
  by_cases h1 : hit.2 < min_score
  · rw [if_pos h1] at hr2; cases hr2; rfl
  · rw [if_neg h1] at hr2
    by_cases h2 : skip_same_id ∧ iq.1 = hit.1
    · rw [if_pos h2] at hr2; cases hr2; rfl
    · rw [if_neg h2] at hr2; cases hr2

/-- Claim C1 (code bug): `IndexFaiss.Query` can never produce the claimed
per-item mappings.  Whenever it returns at all, every returned mapping is
empty (the shared `defaultdict` of line 106 is never written), and on any
input with a candidate surviving the score and identity filters it
crashes on the unassigned `self.curr_db` attribute (line 128) — here at
the concrete input of one database with text `["hello"]` whose search
returns the single hit (offset 0, score 2) for one query item, with
`min_score = 1` and `skip_same_id` unset, where the claim instead
promises the result `[{"hello" ↦ 2}]`. -/
theorem claim_C1_query_crash :
    (∀ (dbs : List QueryDB) (nq : Nat) (min_score : ℚ) (skip_same_id : Bool)
        (res : List (List (String × ℚ))),
      faissQuery dbs nq min_score skip_same_id = Except.ok res →
      ∀ r ∈ res, r = []) ∧
    faissQuery [⟨["hello"], [[(0, 2)]]⟩] 1 1 false =
      Except.error QueryCrash.attr_curr_db := by
  constructor
  · intro dbs nq min_score skip_same_id res h r hr
    unfold faissQuery at h
    cases h1 : dbs.foldlM
        (fun sh db => queryHitsDB min_score skip_same_id db sh) [] with
    | error e => rw [h1] at h; exact Except.noConfusion h
    | ok shared =>
      rw [h1] at h
      have h2 : shared = [] := by
        refine foldlM_except_const _ ?_ _ _ _ h1
        intro s db r2 hr2
        exact queryHitsDB_ok_eq _ _ _ _ _ hr2
      cases h
      rw [h2] at hr
      exact List.eq_of_mem_replicate hr
  · decide

/-- Witness for claim C1: a run in which every hit falls below
`min_score` does return, and the first clause applied there shows both
returned mappings are the (shared) empty one. -/
theorem claim_C1_witness :
    faissQuery [⟨["hello"], [[(0, 0)], [(0, 0)]]⟩] 2 1 false =
      Except.ok [[], []] ∧
    ∀ r ∈ [([] : List (String × ℚ)), []], r = [] :=
  ⟨by decide,
   claim_C1_query_crash.1 [⟨["hello"], [[(0, 0)], [(0, 0)]]⟩] 2 1
     false [[], []] (by decide)⟩

end FaissCli

namespace FaissCli

/-- Counterexample for claim C8 as stated: invoked with `-db a,b`
`-db_str c` `-query q` (mismatched `-db`/`-db_str` lengths), the driver
does exit before any query output with the fatal error of line 262, but
that path only logs — it does not print the usage text, contrary to the
claim's "printed together with the full usage text". -/
theorem claim_C8_counterexample :
    cliValidate ["-db", "a,b", "-db_str", "c", "-query", "q"] =
      Except.error CliExit.db_str_mismatch ∧
    usageShown CliExit.db_str_mismatch = false :=
  ⟨by decide, rfl⟩

/-- Claim C8 (amended): with an empty `-db` or `-query` list, or a
`_str` list whose length differs from its file list's, the driver exits
before the reading/query loops — so no query output is produced — with a
fatal error that is logged without the usage text (the usage banner
accompanies only `-h` and unrecognised options). -/
theorem claim_C8_validation_exits (argv : List String) (a : CliArgs)
    (hp : parseArgs argv initArgs = Except.ok a)
    (hl : validLogLevel a.log_level = true)
    (hbad : a.fdb = [] ∨ a.fquery = [] ∨
      (a.fdb_str ≠ [] ∧ a.fdb_str.length ≠ a.fdb.length) ∨
      (a.fquery_str ≠ [] ∧ a.fquery_str.length ≠ a.fquery.length)) :
    ∃ e, cliValidate argv = Except.error e ∧ usageShown e = false := by
  unfold cliValidate
  rw [hp]
  dsimp only
  rw [if_neg (by simp [hl])]
  by_cases h1 : a.fdb.length = 0
  · rw [if_pos h1]
    exact ⟨CliExit.missing_db, rfl, rfl⟩
  · rw [if_neg h1]
    by_cases h2 : a.fquery.length = 0
    · rw [if_pos h2]
      exact ⟨CliExit.missing_query, rfl, rfl⟩
    · rw [if_neg h2]
      have hdb : ¬ a.fdb = [] := fun hc => h1 (by rw [hc]; rfl)
      have hq : ¬ a.fquery = [] := fun hc => h2 (by rw [hc]; rfl)
      by_cases h3 : a.fdb_str.length = 0
      · rw [if_pos h3]
        have hdbs : a.fdb_str = [] := List.length_eq_zero.mp h3
        rw [if_neg (by simp)]
        by_cases h4 : a.fquery_str.length = 0
        · exfalso
          have hqs : a.fquery_str = [] := List.length_eq_zero.mp h4
          rcases hbad with h | h | h | h
          · exact hdb h
          · exact hq h
          · exact h.1 hdbs
          · exact h.1 hqs
        · rw [if_neg h4]
          have h5 : (a.fquery_str.map some).length ≠ a.fquery.length := by
            simp only [List.length_map]
            rcases hbad with h | h | h | h
            · exact absurd h hdb
            · exact absurd h hq
            · exact absurd h.1 (by simp [hdbs])
            · exact h.2
          rw [if_pos h5]
          exact ⟨CliExit.query_str_mismatch, rfl, rfl⟩
      · rw [if_neg h3]
        by_cases h5 : (a.fdb_str.map some).length ≠ a.fdb.length
        · rw [if_pos h5]
          exact ⟨CliExit.db_str_mismatch, rfl, rfl⟩
        · rw [if_neg h5]
          push_neg at h5
          by_cases h4 : a.fquery_str.length = 0
          · exfalso
            have hqs : a.fquery_str = [] := List.length_eq_zero.mp h4
            rcases hbad with h | h | h | h
            · exact hdb h
            · exact hq h
            · exact h.2 (by simpa using h5)
            · exact h.1 hqs
          · rw [if_neg h4]
            have h6 : (a.fquery_str.map some).length ≠ a.fquery.length := by
              simp only [List.length_map]
              rcases hbad with h | h | h | h
              · exact absurd h hdb
              · exact absurd h hq
              · exact absurd (by simpa using h5) h.2
              · exact h.2
            rw [if_pos h6]
            exact ⟨CliExit.query_str_mismatch, rfl, rfl⟩

/-- Witness for claim C8: the amended theorem applied to the concrete
invocation `-db a,b -db_str c -query q`, whose parse succeeds with a
two-file `-db` list and a one-file `-db_str` list. -/
theorem claim_C8_witness :
    parseArgs ["-db", "a,b", "-db_str", "c", "-query", "q"] initArgs =
      Except.ok ⟨["a", "b"], ["q"], ["c"], [], "1", "0.5", false, false,
        false, false, none, "debug"⟩ ∧
    ∃ e, cliValidate ["-db", "a,b", "-db_str", "c", "-query", "q"] =
      Except.error e ∧ usageShown e = false :=
  ⟨by decide,
   claim_C8_validation_exits ["-db", "a,b", "-db_str", "c", "-query", "q"]
     ⟨["a", "b"], ["q"], ["c"], [], "1", "0.5", false, false, false, false,
       none, "debug"⟩ (by decide) (by decide)
     (Or.inr (Or.inr (Or.inl ⟨by decide, by decide⟩)))⟩

end FaissCli

namespace W2Vec

lemma minClamp_pos : (0 : ℝ) < minClamp := by unfold minClamp; norm_num

lemma clampR_mem (x : ℝ) : minClamp ≤ clampR x ∧ clampR x ≤ 1 - minClamp := by
  unfold clampR
  refine ⟨le_max_left _ _, max_le ?_ (min_le_left _ _)⟩
  unfold minClamp
  norm_num

lemma negLog_clamp_bounds (x : ℝ) :
    - Real.log (1 - minClamp) ≤ - Real.log (clampR x) ∧
    - Real.log (clampR x) ≤ Real.log 1000000 := by
  obtain ⟨h1, h2⟩ := clampR_mem x
  have hpos : (0 : ℝ) < clampR x := lt_of_lt_of_le minClamp_pos h1
  constructor
  · have h5 : Real.log (clampR x) ≤ Real.log (1 - minClamp) :=
      (Real.log_le_log_iff hpos (by unfold minClamp; norm_num)).mpr h2
    linarith
  · have h3 : Real.log minClamp ≤ Real.log (clampR x) :=
      (Real.log_le_log_iff minClamp_pos hpos).mpr h1
    have h4 : - Real.log minClamp = Real.log 1000000 := by
      rw [show minClamp = (1000000 : ℝ)⁻¹ by unfold minClamp; norm_num,
        Real.log_inv]
      ring
    linarith

lemma negLog_oneMinusClamp_pos : 0 < - Real.log (1 - minClamp) := by
  have h1 : (0 : ℝ) < 1 - minClamp := by unfold minClamp; norm_num
  have h2 : 1 - minClamp < 1 := by
    have := minClamp_pos
    linarith
  have := Real.log_neg h1 h2
  linarith

lemma meanR_bounds {a c : ℝ} (l : List ℝ) (hne : l ≠ [])
    (hb : ∀ x ∈ l, a ≤ x ∧ x ≤ c) : a ≤ meanR l ∧ meanR l ≤ c := by
  have hlen0 : 0 < l.length := List.length_pos.mpr hne
  have hlen : (0 : ℝ) < (l.length : ℝ) := by exact_mod_cast hlen0
  have hs1 : (l.length : ℝ) * a ≤ l.sum := by
    have := List.card_nsmul_le_sum l a (fun x hx => (hb x hx).1)
    simpa [nsmul_eq_mul] using this
  have hs2 : l.sum ≤ (l.length : ℝ) * c := by
    have := List.sum_le_card_nsmul l c (fun x hx => (hb x hx).2)
    simpa [nsmul_eq_mul] using this
  unfold meanR
  constructor
  · rw [le_div_iff₀ hlen]
    linarith
  · rw [div_le_iff₀ hlen]
    linarith

lemma half_bounds {α : Type} (f : α → ℝ) (l : List α) (hne : l ≠ [])
    (hf : ∀ a ∈ l, - Real.log (1 - minClamp) ≤ f a ∧ f a ≤ Real.log 1000000) :
    - Real.log (1 - minClamp) ≤ meanR (l.map f) ∧
    meanR (l.map f) ≤ Real.log 1000000 := by
  refine meanR_bounds _ (fun hcon => hne (by simpa using hcon)) ?_
  intro x hx
  rcases List.mem_map.mp hx with ⟨a, ha, rfl⟩
  exact hf a ha

lemma zip_ne_nil {β γ : Type} (l1 : List β) (l2 : List γ) (n : Nat)
    (h1 : l1.length = n) (h2 : l2.length = n) (hn : 0 < n) :
    l1.zip l2 ≠ [] := by
  intro hc
  have := congrArg List.length hc
  rw [List.length_zip, h1, h2] at this
  simp at this
  omega

lemma rectRows_len {rows : List (List Nat)} (h : rectRows rows = true)
    {r : List Nat} (hr : r ∈ rows) :
    r.length = (rows.headD []).length := by
  unfold rectRows at h
  rw [List.all_eq_true] at h
  simpa using h r hr

lemma row_ne_nil {r : List Nat} (h : 1 ≤ r.length) : r ≠ [] := by
  intro hc
  rw [hc] at h
  simp at h

/-- Counterexample for claim C9 as stated: the batch with exactly one
example (a routine final partial batch; window 1, two negatives) is
well-formed, yet `forward_sgram` produces no loss at all — the
`[1, 2, 1]` score tensor collapses under the no-argument `.squeeze()` to
one dimension and `.mean(1)` raises `IndexError` — rather than the
finite strictly positive value the claim asserts for all three losses. -/
theorem claim_C9_counterexample :
    forward_sgram ⟨1, fun _ => [(0 : ℝ)], fun _ => [(0 : ℝ)]⟩
      ⟨[1], [[2, 3]], [[4, 5]], [[2]], [1]⟩ = none := rfl

/-- Claim C9 (amended): for well-formed batches (parallel lists aligned
and rectangular, as the tensor construction requires), `forward_cbow` and
`forward_s2vec` produce a loss that is finite and strictly positive — in
`(0, 2·log 10^6]`, every per-term value being a negated logarithm of a
sigmoid (or one minus it) clamped to `[1e-6, 1-1e-6]` — whenever the
batch is non-degenerate (at least one example, non-empty context and
negative rows, positive sentence lengths matching the padded width);
`forward_sgram` produces such a loss only when the batch additionally has
at least two examples, context width at least two and at least two
negatives, while with exactly one example, a width-one context or exactly
one negative its `squeeze()`/`.mean(1)` raises `IndexError` and no loss
is produced. -/
theorem claim_C9_losses_amended :
    (∀ (w : Word2Vec) (b : Batch),
      2 ≤ b.wrd.length → b.ctx.length = b.wrd.length →
      b.neg.length = b.wrd.length →
      rectRows b.ctx = true → rectRows b.neg = true →
      2 ≤ ctxW b → 2 ≤ negW b →
      ∃ r, forward_sgram w b = some r ∧ 0 < r ∧ r ≤ 2 * Real.log 1000000) ∧
    (∀ (w : Word2Vec) (b : Batch),
      b.wrd ≠ [] → b.ctx.length = b.wrd.length →
      b.neg.length = b.wrd.length →
      rectRows b.ctx = true → rectRows b.neg = true →
      1 ≤ ctxW b → 1 ≤ negW b →
      ∃ r, forward_cbow w b = some r ∧ 0 < r ∧ r ≤ 2 * Real.log 1000000) ∧
    (∀ (w : Word2Vec) (b : Batch),
      b.wrd ≠ [] → b.snt.length = b.wrd.length →
      b.len.length = b.wrd.length → b.neg.length = b.wrd.length →
      rectRows b.snt = true → rectRows b.neg = true → 1 ≤ negW b →
      (∀ n ∈ b.len, 0 < n) → maxLen b.len = sntW b →
      ∃ r, forward_s2vec w b = some r ∧ 0 < r ∧ r ≤ 2 * Real.log 1000000) ∧
    (∀ (w : Word2Vec) (b : Batch),
      b.wrd.length = 1 ∨ ctxW b = 1 ∨ negW b = 1 →
      forward_sgram w b = none) := by
  have hδ := negLog_oneMinusClamp_pos
  refine ⟨?_, ?_, ?_, ?_⟩
  · intro w b hw2 hc hn hrc hrn hC hN
    have hwpos : 0 < b.wrd.length := by omega
    have hwc : b.wrd.zip b.ctx ≠ [] := zip_ne_nil _ _ _ rfl hc hwpos
    have hwn : b.wrd.zip b.neg ≠ [] := zip_ne_nil _ _ _ rfl hn hwpos
    obtain ⟨a1, a2⟩ := half_bounds
      (fun pc : Nat × List Nat => meanR (pc.2.map (fun c =>
        - Real.log (clampR (sigmoidR (dotR (w.oEmb c) (w.iEmb pc.1)))))))
      (b.wrd.zip b.ctx) hwc
      (by
        intro pc hpc
        have hlen := rectRows_len hrc (List.of_mem_zip hpc).2
        refine half_bounds _ _ (row_ne_nil (by rw [hlen]; exact le_trans (by omega) hC)) ?_
        intro c _
        exact negLog_clamp_bounds _)
    obtain ⟨b1, b2⟩ := half_bounds
      (fun pn : Nat × List Nat => meanR (pn.2.map (fun c =>
        - Real.log (clampR (1 - sigmoidR (dotR (w.oEmb c) (w.iEmb pn.1)))))))
      (b.wrd.zip b.neg) hwn
      (by
        intro pn hpn
        have hlen := rectRows_len hrn (List.of_mem_zip hpn).2
        refine half_bounds _ _ (row_ne_nil (by rw [hlen]; exact le_trans (by omega) hN)) ?_
        intro c _
        exact negLog_clamp_bounds _)
    unfold forward_sgram
    rw [if_pos ⟨hrc, hrn⟩, if_neg (by omega)]
    refine ⟨_, rfl, ?_, ?_⟩
    · linarith
    · linarith
  · intro w b hw1 hc hn hrc hrn hC hN
    have hwpos : 0 < b.wrd.length := List.length_pos.mpr hw1
    have hwc : b.wrd.zip b.ctx ≠ [] := zip_ne_nil _ _ _ rfl hc hwpos
    have hcn : b.ctx.zip b.neg ≠ [] := zip_ne_nil _ _ _ hc hn hwpos
    obtain ⟨a1, a2⟩ := half_bounds
      (fun pc : Nat × List Nat =>
        - Real.log (clampR (sigmoidR
            (dotR (meanVecs w.ds (pc.2.map w.iEmb)) (w.oEmb pc.1)))))
      (b.wrd.zip b.ctx) hwc
      (by intro pc _; exact negLog_clamp_bounds _)
    obtain ⟨b1, b2⟩ := half_bounds
      (fun cn : List Nat × List Nat => meanR (cn.2.map (fun c =>
        - Real.log (clampR (1 - sigmoidR
            (dotR (meanVecs w.ds (cn.1.map w.iEmb)) (w.oEmb c)))))))
      (b.ctx.zip b.neg) hcn
      (by
        intro cn hcn2
        have hlen := rectRows_len hrn (List.of_mem_zip hcn2).2
        refine half_bounds _ _ (row_ne_nil (by rw [hlen]; exact hN)) ?_
        intro c _
        exact negLog_clamp_bounds _)
    unfold forward_cbow
    rw [if_pos ⟨hrc, hrn⟩, if_neg (by omega)]
    refine ⟨_, rfl, ?_, ?_⟩
    · linarith
    · linarith
  · intro w b hw1 hs hl hn hrs hrn hN hlens hml
    have hwpos : 0 < b.wrd.length := List.length_pos.mpr hw1
    have hwn : b.wrd.zip b.neg ≠ [] := zip_ne_nil _ _ _ rfl hn hwpos
    have hwsl : b.wrd.zip (b.snt.zip b.len) ≠ [] := by
      refine zip_ne_nil _ _ _ rfl ?_ hwpos
      rw [List.length_zip, hs, hl]
      simp
    obtain ⟨a1, a2⟩ := half_bounds
      (fun x : Nat × List Nat × Nat =>
        - Real.log (clampR (sigmoidR
            (dotR (sentEmbAvg w x.2.1 x.2.2) (w.oEmb x.1)))))
      (b.wrd.zip (b.snt.zip b.len)) hwsl
      (by intro x _; exact negLog_clamp_bounds _)
    obtain ⟨b1, b2⟩ := half_bounds
      (fun pn : Nat × List Nat => meanR (pn.2.map (fun c =>
        - Real.log (clampR (1 - sigmoidR (dotR (w.oEmb pn.1) (w.oEmb c)))))))
      (b.wrd.zip b.neg) hwn
      (by
        intro pn hpn
        have hlen := rectRows_len hrn (List.of_mem_zip hpn).2
        refine half_bounds _ _ (row_ne_nil (by rw [hlen]; exact hN)) ?_
        intro c _
        exact negLog_clamp_bounds _)
    have hany : b.len.any (fun n => n == 0) = false := by
      rw [List.any_eq_false]
      intro n hn2
      have := hlens n hn2
      simp
      omega
    unfold forward_s2vec
    rw [if_pos ⟨hrs, hrn⟩]
    rw [if_neg (by
      intro hcon
      rcases hcon with h | h | h
      · exact hw1 (List.length_eq_zero.mp h)
      · omega
      · rw [hany] at h; simp at h)]
    refine ⟨_, rfl, ?_, ?_⟩
    · linarith
    · linarith
  · intro w b hone
    unfold forward_sgram
    by_cases hr : rectRows b.ctx = true ∧ rectRows b.neg = true
    · rw [if_pos hr, if_pos (by omega)]
    · rw [if_neg (by simpa using hr)]

/-- Witness for claim C9 (amended): on a concrete two-example batch with
width-two contexts and negatives all three losses exist and are strictly
positive and bounded; on the same model a one-example batch makes
`forward_sgram` produce no loss. -/
theorem claim_C9_witness :
    (∃ r, forward_sgram ⟨1, fun _ => [(0 : ℝ)], fun _ => [(0 : ℝ)]⟩
        ⟨[1, 2], [[3, 4], [5, 6]], [[7, 8], [9, 10]], [[2], [1]], [1, 1]⟩ =
          some r ∧ 0 < r ∧ r ≤ 2 * Real.log 1000000) ∧
    (∃ r, forward_cbow ⟨1, fun _ => [(0 : ℝ)], fun _ => [(0 : ℝ)]⟩
        ⟨[1, 2], [[3, 4], [5, 6]], [[7, 8], [9, 10]], [[2], [1]], [1, 1]⟩ =
          some r ∧ 0 < r ∧ r ≤ 2 * Real.log 1000000) ∧
    (∃ r, forward_s2vec ⟨1, fun _ => [(0 : ℝ)], fun _ => [(0 : ℝ)]⟩
        ⟨[1, 2], [[3, 4], [5, 6]], [[7, 8], [9, 10]], [[2], [1]], [1, 1]⟩ =
          some r ∧ 0 < r ∧ r ≤ 2 * Real.log 1000000) ∧
    forward_sgram ⟨1, fun _ => [(0 : ℝ)], fun _ => [(0 : ℝ)]⟩
      ⟨[2], [[5, 6]], [[9, 10]], [[1]], [1]⟩ = none :=
  ⟨claim_C9_losses_amended.1 ⟨1, fun _ => [(0 : ℝ)], fun _ => [(0 : ℝ)]⟩
     ⟨[1, 2], [[3, 4], [5, 6]], [[7, 8], [9, 10]], [[2], [1]], [1, 1]⟩
     (by decide) rfl rfl (by decide) (by decide) (by decide) (by decide),
   claim_C9_losses_amended.2.1 ⟨1, fun _ => [(0 : ℝ)], fun _ => [(0 : ℝ)]⟩
     ⟨[1, 2], [[3, 4], [5, 6]], [[7, 8], [9, 10]], [[2], [1]], [1, 1]⟩
     (by decide) rfl rfl (by decide) (by decide) (by decide) (by decide),
   claim_C9_losses_amended.2.2.1 ⟨1, fun _ => [(0 : ℝ)], fun _ => [(0 : ℝ)]⟩
     ⟨[1, 2], [[3, 4], [5, 6]], [[7, 8], [9, 10]], [[2], [1]], [1, 1]⟩
     (by decide) rfl rfl rfl (by decide) (by decide) (by decide)
     (by decide) (by decide),
   claim_C9_losses_amended.2.2.2 ⟨1, fun _ => [(0 : ℝ)], fun _ => [(0 : ℝ)]⟩
     ⟨[2], [[5, 6]], [[9, 10]], [[1]], [1]⟩ (Or.inl (by decide))⟩

end W2Vec
